import Mathlib

/-!
Verification of the UNEP section-extraction and bundle-synchronization core.

The definitions below are a shallow embedding of the Python source:
* `mergeBundles` embeds `merge_bundles` from
  `alicia_ass7_pdfextraction/scrape_unfccc.py` (lines 496-534), including
  Python `dict` semantics for `existing_lookup` (insertion order kept,
  duplicate keys keep the first position and the last value).  The Python
  code mutates entry dicts in place; the embedding threads those updates
  through the lookup.  The only field ever mutated after an entry has been
  appended to the output list is `stale`, and such late writes always
  re-write `true` over `true`, so passing entries by value is
  observationally equal to the reference semantics.
* `cleanExtractedText` embeds `clean_extracted_text` (lines 380-387):
  the five `re.sub`/`replace` passes and the final `strip`, each written as
  a recursive function on `List Char` (a Python `str` is a sequence of
  code points, which `List Char` models exactly).
* `resolvedRaw` / `resolveSpans` embed the span-resolution loop of
  `extract_sections_from_pdf` (lines 449-473): sort located seeds by start
  offset (Python `sorted` is stable, as is `List.insertionSort`), end each
  span at the next seed's start (or end of document), pull the start back
  over a bare roman-numeral label on the same line, strip, and drop empty
  sections.  `extractSections` composes this with the per-section seed
  location of lines 398-447; the regex search that produces one section's
  seed from its configuration is abstracted as a function
  `Doc → Option (Nat × Nat)`, because each heading/fallback search depends
  only on the document text and that section's own pattern list.
* `extractSectionsByKeywords` embeds the keyword fallback of
  `Ass8-9/pdf_scraper.py` (lines 403-458) for a single section.
Python string sorting compares code points, as does `lexLt` below; `\s`,
`\w`, `str.strip` and `str.lower` are modelled on their ASCII behaviour,
which covers every character the repository's patterns and data use.
-/

/-- One persisted record, the JSON object produced by `build_json_entry`.
The Python field `section` is a Lean keyword, hence `sectionName`. -/
structure Entry where
  country : String
  sectionName : String
  source_doc : String
  doc_url : String
  extracted_text : String
  created_utc : String
  stale : Bool
deriving DecidableEq, Repr

/-- The identity key `(country, section, source_doc, doc_url)`. -/
abbrev Key := String × String × String × String

/-- `tuple(entry[field] for field in key_fields)`. -/
def keyOf (e : Entry) : Key := (e.country, e.sectionName, e.source_doc, e.doc_url)

/-- `{**e, "stale": True}`: the in-place write `entry["stale"] = True`. -/
def setStale (e : Entry) : Entry := { e with stale := true }

/-- A Python `dict` from keys to entries, as an ordered association list
with pairwise distinct keys. -/
abbrev Dict := List (Key × Entry)

/-- One step of a Python dict build: an existing key keeps its position and
takes the new value, a fresh key is appended. -/
def dictInsert (d : Dict) (k : Key) (v : Entry) : Dict :=
  if d.any (fun p => p.1 = k) then
    d.map (fun p => if p.1 = k then (k, v) else p)
  else d ++ [(k, v)]

/-- `existing_lookup = {key(e): e for e in existing_entries}`. -/
def buildLookup (es : List Entry) : Dict :=
  es.foldl (fun d e => dictInsert d (keyOf e) e) []

/-- `existing_lookup.get(key)`. -/
def dGet (d : Dict) (k : Key) : Option Entry :=
  (d.find? (fun p => p.1 = k)).map (fun p => p.2)

/-- Rewrites the value stored at a key that is already present
(the in-place mutation of a dict value seen through the dict). -/
def dUpdate (d : Dict) (k : Key) (v : Entry) : Dict :=
  d.map (fun p => if p.1 = k then (k, v) else p)

/-- Membership test used for `seen_keys` (a Python `set`; only membership
is ever queried, so a list with `any` is a faithful model). -/
def keyMem (k : Key) (seen : List Key) : Bool :=
  seen.any (fun x => x = k)

/-- The `for entry in new_entries` loop of `merge_bundles`.  State:
the lookup (updated when an existing entry is marked stale in place),
`seen_keys`, and `updated_entries` so far. -/
def processNew (d : Dict) (seen : List Key) (out : List Entry) :
    List Entry → Dict × List Key × List Entry
  | [] => (d, seen, out)
  | n :: rest =>
    match dGet d (keyOf n) with
    | none => processNew d (keyOf n :: seen) (out ++ [n]) rest
    | some e =>
      if e.extracted_text = n.extracted_text then
        processNew d (keyOf n :: seen)
          (out ++ [{ n with created_utc := e.created_utc, stale := e.stale }]) rest
      else
        processNew (dUpdate d (keyOf n) (setStale e)) (keyOf n :: seen)
          (out ++ [setStale e, n]) rest

/-- The trailing `for key, entry in existing_lookup.items()` loop:
entries whose key was not seen are marked stale and appended, in the
lookup's (insertion) order. -/
def staleUnseen (d : Dict) (seen : List Key) : List Entry :=
  (d.filter (fun p => !(keyMem p.1 seen))).map (fun p => setStale p.2)

/-- Python string `<`: lexicographic comparison of code-point sequences. -/
def lexLt : List Char → List Char → Bool
  | [], [] => false
  | [], _ :: _ => true
  | _ :: _, [] => false
  | a :: as, b :: bs =>
    if a < b then true else if b < a then false else lexLt as bs

/-- Python `s1 < s2` on strings. -/
def strLt (a b : String) : Bool := lexLt a.data b.data

/-- Python `s1 <= s2` on strings, i.e. `not (s2 < s1)`. -/
def strLe (a b : String) : Bool := !(strLt b a)

/-- The sort key `(item["country"], item["source_doc"], item["created_utc"])`
compared the way Python compares tuples of strings (lexicographically, with
code-point string comparison). -/
def entryLeB (a b : Entry) : Bool :=
  strLt a.country b.country ||
    (a.country = b.country &&
      (strLt a.source_doc b.source_doc ||
        (a.source_doc = b.source_doc && strLe a.created_utc b.created_utc)))

def entryLe (a b : Entry) : Prop := entryLeB a b = true

instance : DecidableRel entryLe := fun a b => by
  unfold entryLe; infer_instance

/-- `updated_entries.sort(key=...)`: Python `list.sort` is stable, as is
`List.insertionSort`. -/
def sortEntries (l : List Entry) : List Entry := l.insertionSort entryLe

/-- `merge_bundles(bundle_path, new_entries)`, with the already-loaded
bundle contents as first argument (file I/O is outside the core). -/
def mergeBundles (existing new : List Entry) : List Entry :=
  let st := processNew (buildLookup existing) [] [] new
  sortEntries (st.2.2 ++ staleUnseen st.1 st.2.1)

/-- Convenience constructor mirroring `build_json_entry` (which always
produces `stale = False` records). -/
def buildEntry (country sectionName source_doc doc_url text created : String) : Entry :=
  ⟨country, sectionName, source_doc, doc_url, text, created, false⟩

/-- What one incoming entry contributes to `updated_entries`, read off
against a fixed lookup (closed form of one loop iteration). -/
def mergeStepD (d : Dict) (n : Entry) : List Entry :=
  match dGet d (keyOf n) with
  | none => [n]
  | some e =>
    if e.extracted_text = n.extracted_text then
      [{ n with created_utc := e.created_utc, stale := e.stale }]
    else [setStale e, n]

/-- Closed form of the body of `merge_bundles` (before the final sort),
valid when the incoming batch has pairwise distinct identity keys. -/
def mergeCoreD (d : Dict) (new : List Entry) : List Entry :=
  new.flatMap (mergeStepD d) ++
    (d.filter (fun p => !(new.any (fun n => keyOf n = p.1)))).map
      (fun p => setStale p.2)

/-- Number of non-stale entries carrying identity key `k`. -/
def countKeyNonstale (l : List Entry) (k : Key) : Nat :=
  l.countP (fun e => keyOf e = k && !e.stale)

/-- Pairwise-distinct identity keys. -/
def KeysDistinct (l : List Entry) : Prop :=
  l.Pairwise (fun a b => keyOf a ≠ keyOf b)

/- ### Text normalizer (`clean_extracted_text`, lines 380-387) -/

/-- Horizontal whitespace, the regex class `[ \t]`. -/
def isHoriz (c : Char) : Bool := c = ' ' || c = '\t'

/-- Python `\s` and `str.strip` whitespace (ASCII part). -/
def isPyWS (c : Char) : Bool :=
  c = ' ' || c = '\t' || c = '\n' || c = '\r' || c = '\x0b' || c = '\x0c'

/-- The regex class `\w` (ASCII part). -/
def isWordChar (c : Char) : Bool :=
  ('a' ≤ c && c ≤ 'z') || ('A' ≤ c && c ≤ 'Z') ||
    ('0' ≤ c && c ≤ '9') || c = '_'

/-- `text.replace("\r", "\n")`. -/
def replCR : List Char → List Char
  | [] => []
  | c :: t => (if c = '\r' then '\n' else c) :: replCR t

/-- `re.sub(r"-\n(?=\w)", "", text)`: delete a hyphen-newline pair when a
word character follows; the lookahead consumes nothing, so scanning
resumes at the word character. -/
def dehyph : List Char → List Char
  | [] => []
  | [a] => [a]
  | [a, b] => [a, b]
  | a :: b :: c :: t =>
    if a = '-' && b = '\n' && isWordChar c then dehyph (c :: t)
    else a :: dehyph (b :: c :: t)

/-- First-character test on a cleaned remainder. -/
def headIs (p : Char → Bool) : List Char → Bool
  | [] => false
  | x :: _ => p x

/-- `re.sub(r"[ \t]+\n", "\n", text)` as a right fold: a horizontal
whitespace character is dropped exactly when the cleaned remainder starts
with a newline, which deletes precisely the maximal `[ \t]+` run in front
of each newline. -/
def rstripNl : List Char → List Char
  | [] => []
  | c :: rest =>
    let out := rstripNl rest
    if isHoriz c && headIs (fun x => x = '\n') out then out else c :: out

/-- `re.sub(r"\n{3,}", "\n\n", text)` as a right fold: a newline is
dropped exactly when two newlines already begin the cleaned remainder,
which caps every maximal newline run at two. -/
def squeezeNl : List Char → List Char
  | [] => []
  | c :: rest =>
    let out := squeezeNl rest
    if c = '\n' && headIs (fun x => x = '\n') out &&
        headIs (fun x => x = '\n') out.tail then out
    else c :: out

/-- `re.sub(r"[ \t]{2,}", " ", text)` as a right fold: a horizontal
whitespace character merges with a following one into a single space,
which maps every maximal `[ \t]` run of length at least two to `" "`. -/
def squeezeSp : List Char → List Char
  | [] => []
  | c :: rest =>
    let out := squeezeSp rest
    if isHoriz c && headIs isHoriz out then ' ' :: out.tail else c :: out

/-- Trailing-whitespace removal (the right half of Python `str.strip`). -/
def pyRstrip : List Char → List Char
  | [] => []
  | c :: t =>
    match pyRstrip t with
    | [] => if isPyWS c then [] else [c]
    | r => c :: r

/-- Python `str.strip()`. -/
def pyStrip (s : List Char) : List Char := pyRstrip (s.dropWhile isPyWS)

/-- `clean_extracted_text`: the five passes and the final `strip`, in the
source's order. -/
def cleanExtractedText (s : List Char) : List Char :=
  pyStrip (squeezeSp (squeezeNl (rstripNl (dehyph (replCR s)))))

/-- Adjacent-pair scan: no position where `p` holds followed by `q`. -/
def noAdj (p q : Char → Bool) : List Char → Bool
  | a :: b :: t => !(p a && q b) && noAdj p q (b :: t)
  | _ => true

/-- No three consecutive newlines. -/
def noTripleNl : List Char → Bool
  | a :: b :: c :: t =>
    !(a = '\n' && b = '\n' && c = '\n') && noTripleNl (b :: c :: t)
  | _ => true

/-- No carriage return anywhere (what the first pass guarantees). -/
def noCR (l : List Char) : Bool := l.all (fun c => !(c = '\r'))

/-- A hyphen directly followed by a newline and a word character (the
configuration a second `dehyph` pass would rewrite). -/
def hasHyphNlWord : List Char → Bool
  | a :: b :: c :: t =>
    (a = '-' && b = '\n' && isWordChar c) || hasHyphNlWord (b :: c :: t)
  | _ => false

/- ### Span resolver (`extract_sections_from_pdf`, lines 398-473) -/

/-- A document is its sequence of code points (Python `str`). -/
abbrev Doc := List Char

/-- `combined_text.rfind("\n", 0, stop)`: the greatest index below `stop`
holding a newline, if any. -/
def rfindNl (doc : Doc) : Nat → Option Nat
  | 0 => none
  | i + 1 => if doc.getD i ' ' = '\n' then some i else rfindNl doc i

/-- `combined_text[a:b]` (Python slice on code points). -/
def sliceD (doc : Doc) (a b : Nat) : Doc := (doc.drop a).take (b - a)

/-- One of `ivxlcdm`, case-insensitively. -/
def romanChar (c : Char) : Bool :=
  c.toLower = 'i' || c.toLower = 'v' || c.toLower = 'x' || c.toLower = 'l' ||
    c.toLower = 'c' || c.toLower = 'd' || c.toLower = 'm'

/-- `re.match(r"^\s*[ivxlcdm]+\.\s*$", line, re.IGNORECASE)`: optional
whitespace, a nonempty run of roman-numeral letters, a dot, optional
whitespace to the end.  (No backtracking is lost: a shorter roman run
would have to be followed by `.`, but it ends at a roman letter.) -/
def romanLabel (line : Doc) : Bool :=
  let t := line.dropWhile isPyWS
  let run := t.takeWhile romanChar
  !run.isEmpty &&
    (match t.drop run.length with
     | '.' :: tail => tail.all isPyWS
     | _ => false)

/-- Lines 460-466: `previous_newline = rfind("\n", 0, start)`; when the
part of the match's own line before the match is a bare roman-numeral
label, the span start is pulled back to the line start. -/
def pullBack (doc : Doc) (start : Nat) : Nat :=
  match rfindNl doc start with
  | none => start
  | some p => if romanLabel (sliceD doc (p + 1) start) then p + 1 else start

/-- One resolved span before strip/drop: section name, resolved (possibly
pulled-back) start, the seed start, and the exclusive end. -/
structure RSpan where
  name : String
  rstart : Nat
  sstart : Nat
  rend : Nat
deriving DecidableEq, Repr

/-- `sorted(section_spans.items(), key=lambda item: item[1][0])`'s key
order (stable sort on seed starts). -/
def seedLe (a b : String × Nat × Nat) : Prop := a.2.1 ≤ b.2.1

instance : DecidableRel seedLe := fun a b => by
  unfold seedLe; infer_instance

instance : IsTotal (String × Nat × Nat) seedLe := by
  unfold seedLe
  exact ⟨fun a b => Nat.le_total a.2.1 b.2.1⟩

instance : IsTrans (String × Nat × Nat) seedLe := by
  unfold seedLe
  exact ⟨fun a b c h1 h2 => Nat.le_trans h1 h2⟩

/-- The resolution loop: each located section's span runs from its
pulled-back start to the next located section's seed start, or to the end
of the document for the last. -/
def rawAux (doc : Doc) : List (String × Nat × Nat) → List RSpan
  | [] => []
  | (s, st, _) :: rest =>
    ⟨s, pullBack doc st, st,
      match rest with
      | [] => doc.length
      | (_, st2, _) :: _ => st2⟩ :: rawAux doc rest

/-- The resolved raw spans of one document, in seed order. -/
def resolvedRaw (doc : Doc) (seeds : List (String × Nat × Nat)) : List RSpan :=
  rawAux doc (seeds.insertionSort seedLe)

/-- `section_text = combined_text[start:next_start].strip()`, with empty
sections dropped; the result is the `extracted` mapping in order. -/
def resolveSpans (doc : Doc) (seeds : List (String × Nat × Nat)) :
    List (String × Doc) :=
  (resolvedRaw doc seeds).filterMap (fun r =>
    if (pyStrip (sliceD doc r.rstart r.rend)).isEmpty then none
    else some (r.name, pyStrip (sliceD doc r.rstart r.rend)))

/-- Lines 398-447 then 449-473: every section's heading/fallback search
depends only on the document text and that section's own configuration,
here abstracted as a matcher returning `(match.start(), match.end())`;
located seeds are collected in configuration order and resolved. -/
def extractSections (doc : Doc)
    (defs : List (String × (Doc → Option (Nat × Nat)))) : List (String × Doc) :=
  resolveSpans doc (defs.filterMap (fun d =>
    (d.2 doc).map (fun p => (d.1, p.1, p.2))))

/-- `x ∈ [rstart, rend)` for some resolved span. -/
def coveredBy (l : List RSpan) (x : Nat) : Prop :=
  ∃ r ∈ l, r.rstart ≤ x ∧ x < r.rend

instance (l : List RSpan) (x : Nat) : Decidable (coveredBy l x) := by
  unfold coveredBy; infer_instance

/-- Each span's end is the next span's seed start; the last ends at `L`. -/
def chainEnds : List RSpan → Nat → Bool
  | [], _ => true
  | [r], L => r.rend = L
  | r :: r2 :: rest, L => (r.rend = r2.sstart) && chainEnds (r2 :: rest) L

/- ### Keyword fallback (`extract_sections_by_keywords`,
`Ass8-9/pdf_scraper.py` lines 403-458), for one section -/

/-- `kw in line.lower()` for pre-lowered keywords (Python substring
test; the empty string is a substring of everything). -/
def subIn (pat : List Char) : List Char → Bool
  | [] => pat.isEmpty
  | c :: rest => pat.isPrefixOf (c :: rest) || subIn pat rest

/-- `any(kw in lower_line for kw in keywords)` with `kw.lower()` applied
to the configured keywords and `line.lower()` to the line. -/
def lineMatches (kws : List (List Char)) (line : List Char) : Bool :=
  kws.any (fun kw => subIn (kw.map Char.toLower) (line.map Char.toLower))

/-- `matched_indices`. -/
def matchedIndices (kws : List (List Char)) (lines : List (List Char)) :
    List Nat :=
  (List.range lines.length).filter (fun i => lineMatches kws (lines.getD i []))

/-- The clustering loop over `matched_indices[1:]` with state
`(start, prev)`: gaps of more than 2 lines split clusters. -/
def clusterAux (start prev : Nat) : List Nat → List (Nat × Nat)
  | [] => [(start, prev)]
  | i :: rest =>
    if i - prev ≤ 2 then clusterAux start i rest
    else (start, prev) :: clusterAux i i rest

/-- `clusters` (the code guards on `matched_indices` being nonempty). -/
def clustersOf : List Nat → List (Nat × Nat)
  | [] => []
  | m :: rest => clusterAux m m rest

/-- `ctx_start = max(start_idx - 5, 0)`, `ctx_end = min(end_idx + 5,
len(lines) - 1)` (Nat subtraction clamps at 0 like `max(..., 0)`). -/
def expandWin (numLines : Nat) (c : Nat × Nat) : Nat × Nat :=
  (c.1 - 5, min (c.2 + 5) (numLines - 1))

/-- The `seen_spans` pass: keep each expanded window unless an identical
one was already emitted. -/
def dedupWins (seen : List (Nat × Nat)) : List (Nat × Nat) → List (Nat × Nat)
  | [] => []
  | w :: rest =>
    if w ∈ seen then dedupWins seen rest
    else w :: dedupWins (w :: seen) rest

/-- The surviving expanded windows in document order. -/
def survivingWins (kws : List (List Char)) (lines : List (List Char)) :
    List (Nat × Nat) :=
  dedupWins [] ((clustersOf (matchedIndices kws lines)).map
    (expandWin lines.length))

/-- `lines[ctx_start : ctx_end + 1]` on the line list. -/
def winLines (lines : List (List Char)) (w : Nat × Nat) : List (List Char) :=
  (lines.drop w.1).take (w.2 + 1 - w.1)

/-- `context_lines` (each window followed by the `""` separator), then
`"\n".join(...)` and `.strip()`. -/
def extractSectionByKeywords (kws : List (List Char))
    (lines : List (List Char)) : List Char :=
  if kws.isEmpty then []
  else if (matchedIndices kws lines).isEmpty then []
  else
    pyStrip (List.intercalate ['\n']
      ((survivingWins kws lines).flatMap (fun w => winLines lines w ++ [[]])))

/- ### Theorems -/

theorem lexLt_asymm : ∀ a b : List Char, lexLt a b = true → lexLt b a = false
  | [], [], _ => rfl
  | [], _ :: _, _ => rfl
  | _ :: _, [], h => by simp [lexLt] at h
  | a :: as, b :: bs, h => by
    simp only [lexLt] at h ⊢
    rcases lt_trichotomy a b with hlt | heq | hgt
    · simp [hlt, not_lt_of_lt hlt]
    · subst heq
      simp only [lt_irrefl, if_false, ite_false] at h ⊢
      simpa using lexLt_asymm as bs (by simpa using h)
    · simp [hgt, not_lt_of_lt hgt] at h

theorem lexLt_conn : ∀ a b : List Char,
    lexLt a b = false → lexLt b a = false → a = b
  | [], [], _, _ => rfl
  | [], _ :: _, h, _ => by simp [lexLt] at h
  | _ :: _, [], _, h => by simp [lexLt] at h
  | a :: as, b :: bs, h, h' => by
    simp only [lexLt] at h h'
    rcases lt_trichotomy a b with hab | hab | hab
    · simp [hab] at h
    · subst hab
      simp only [lt_irrefl, if_false, ite_false] at h h'
      rw [lexLt_conn as bs (by simpa using h) (by simpa using h')]
    · simp [hab] at h'

theorem lexLt_trans : ∀ a b c : List Char,
    lexLt a b = true → lexLt b c = true → lexLt a c = true
  | [], [], _, h, _ => by simp [lexLt] at h
  | [], _ :: _, [], _, h => by simp [lexLt] at h
  | [], _ :: _, _ :: _, _, _ => rfl
  | _ :: _, [], _, h, _ => by simp [lexLt] at h
  | _ :: _, _ :: _, [], _, h => by simp [lexLt] at h
  | a :: as, b :: bs, c :: cs, h, h' => by
    simp only [lexLt] at h h' ⊢
    rcases lt_trichotomy a b with h1 | h1 | h1
    · rcases lt_trichotomy b c with h2 | h2 | h2
      · simp [h1.trans h2]
      · subst h2; simp [h1]
      · simp [h1, not_lt_of_lt h1] at h
        simp [h2, not_lt_of_lt h2] at h'
    · subst h1
      rcases lt_trichotomy a c with h2 | h2 | h2
      · simp [h2]
      · subst h2
        simp only [lt_irrefl, if_false, ite_false] at h h' ⊢
        simpa using lexLt_trans as bs cs (by simpa using h) (by simpa using h')
      · simp [h2, not_lt_of_lt h2] at h'
    · simp [h1, not_lt_of_lt h1] at h

theorem strLt_asymm {a b : String} (h : strLt a b = true) : strLt b a = false :=
  lexLt_asymm _ _ h

theorem strLt_conn {a b : String} (h : strLt a b = false)
    (h' : strLt b a = false) : a = b := by
  have h2 := lexLt_conn a.data b.data h h'
  exact congrArg String.mk h2

theorem strLt_trans {a b c : String} (h : strLt a b = true)
    (h' : strLt b c = true) : strLt a c = true :=
  lexLt_trans _ _ _ h h'

theorem strLe_total (a b : String) : strLe a b = true ∨ strLe b a = true := by
  unfold strLe
  by_cases h : strLt b a = true
  · exact Or.inr (by simp [strLt_asymm h])
  · exact Or.inl (by simp_all)

theorem strLe_trans {a b c : String} (h : strLe a b = true)
    (h' : strLe b c = true) : strLe a c = true := by
  unfold strLe at *
  simp only [Bool.not_eq_true'] at h h' ⊢
  by_cases hca : strLt c a = true
  · by_cases hbc : strLt b c = true
    · have := strLt_trans hbc hca
      simp_all
    · have : b = c := strLt_conn (by simpa using hbc) h'
      subst this
      simp_all
  · simpa using hca

theorem strLe_antisymm {a b : String} (h : strLe a b = true)
    (h' : strLe b a = true) : a = b := by
  unfold strLe at h h'
  simp only [Bool.not_eq_true'] at h h'
  exact strLt_conn h' h

instance : IsTotal Entry entryLe where
  total a b := by
    unfold entryLe entryLeB
    simp only [Bool.or_eq_true, Bool.and_eq_true, decide_eq_true_eq]
    by_cases h1 : strLt a.country b.country = true
    · exact Or.inl (Or.inl h1)
    · by_cases h2 : strLt b.country a.country = true
      · exact Or.inr (Or.inl h2)
      · have e1 : a.country = b.country :=
          strLt_conn (by simpa using h1) (by simpa using h2)
        by_cases h3 : strLt a.source_doc b.source_doc = true
        · exact Or.inl (Or.inr ⟨e1, Or.inl h3⟩)
        · by_cases h4 : strLt b.source_doc a.source_doc = true
          · exact Or.inr (Or.inr ⟨e1.symm, Or.inl h4⟩)
          · have e2 : a.source_doc = b.source_doc :=
              strLt_conn (by simpa using h3) (by simpa using h4)
            rcases strLe_total a.created_utc b.created_utc with h5 | h5
            · exact Or.inl (Or.inr ⟨e1, Or.inr ⟨e2, h5⟩⟩)
            · exact Or.inr (Or.inr ⟨e1.symm, Or.inr ⟨e2.symm, h5⟩⟩)

instance : IsTrans Entry entryLe where
  trans a b c hab hbc := by
    unfold entryLe entryLeB at *
    simp only [Bool.or_eq_true, Bool.and_eq_true, decide_eq_true_eq] at hab hbc ⊢
    rcases hab with h1 | ⟨e1, h1⟩
    · rcases hbc with h2 | ⟨e2, h2⟩
      · exact Or.inl (strLt_trans h1 h2)
      · exact Or.inl (e2 ▸ h1)
    · rcases hbc with h2 | ⟨e2, h2⟩
      · exact Or.inl (e1 ▸ h2)
      · refine Or.inr ⟨e1.trans e2, ?_⟩
        rcases h1 with h1 | ⟨f1, h1⟩
        · rcases h2 with h2 | ⟨f2, h2⟩
          · exact Or.inl (strLt_trans h1 h2)
          · exact Or.inl (f2 ▸ h1)
        · rcases h2 with h2 | ⟨f2, h2⟩
          · exact Or.inl (f1 ▸ h2)
          · exact Or.inr ⟨f1.trans f2, strLe_trans h1 h2⟩

theorem setStale_setStale (e : Entry) : setStale (setStale e) = setStale e := rfl

theorem keyOf_setStale (e : Entry) : keyOf (setStale e) = keyOf e := rfl

theorem setStale_of_stale {e : Entry} (h : e.stale = true) : setStale e = e := by
  cases e; simp_all [setStale]

theorem flatMap_congr {α β : Type} {l : List α} {f g : α → List β}
    (h : ∀ a ∈ l, f a = g a) : l.flatMap f = l.flatMap g := by
  induction l with
  | nil => rfl
  | cons a t ih =>
    simp only [List.flatMap_cons]
    rw [h a (by simp), ih (fun x hx => h x (by simp [hx]))]

theorem dGet_cons {p : Key × Entry} {t : Dict} {k : Key} :
    dGet (p :: t) k = if p.1 = k then some p.2 else dGet t k := by
  unfold dGet
  rw [List.find?_cons]
  by_cases h : p.1 = k <;> simp [h]

theorem dUpdate_cons {p : Key × Entry} {t : Dict} {k : Key} {v : Entry} :
    dUpdate (p :: t) k v =
      (if p.1 = k then (k, v) else p) :: dUpdate t k v := rfl

theorem dGet_dUpdate_self {d : Dict} {k : Key} {e : Entry} (v : Entry)
    (h : dGet d k = some e) : dGet (dUpdate d k v) k = some v := by
  induction d with
  | nil => simp [dGet] at h
  | cons p t ih =>
    rw [dGet_cons] at h
    rw [dUpdate_cons, dGet_cons]
    by_cases hp : p.1 = k
    · simp [hp]
    · simp only [if_neg hp] at h ⊢
      exact ih h

theorem dGet_dUpdate_ne {d : Dict} {k k' : Key} (v : Entry) (h : k' ≠ k) :
    dGet (dUpdate d k v) k' = dGet d k' := by
  induction d with
  | nil => rfl
  | cons p t ih =>
    rw [dUpdate_cons, dGet_cons, dGet_cons]
    by_cases hp : p.1 = k
    · have : ¬ k = k' := fun hk => h hk.symm
      simp [hp, this, ih]
    · simp only [if_neg hp]
      by_cases hq : p.1 = k'
      · simp [hq]
      · simp [hq, ih]

theorem dGet_mem {d : Dict} {k : Key} {v : Entry} (h : dGet d k = some v) :
    (k, v) ∈ d := by
  induction d with
  | nil => simp [dGet] at h
  | cons p t ih =>
    rw [dGet_cons] at h
    by_cases hp : p.1 = k
    · simp only [if_pos hp, Option.some.injEq] at h
      have hpv : (k, v) = p := by cases p; simp_all
      rw [hpv]
      exact List.mem_cons_self _ _
    · simp only [if_neg hp] at h
      exact List.mem_cons_of_mem _ (ih h)

theorem filter_dUpdate_false {d : Dict} {k : Key} (v : Entry)
    {P : Key → Bool} (h : P k = false) :
    (dUpdate d k v).filter (fun p => P p.1) = d.filter (fun p => P p.1) := by
  induction d with
  | nil => rfl
  | cons p t ih =>
    rw [dUpdate_cons, List.filter_cons, List.filter_cons]
    by_cases hp : p.1 = k
    · rw [if_pos hp]
      have h1 : P ((k, v) : Key × Entry).1 = false := h
      have h2 : P p.1 = false := hp ▸ h
      simp only [h1, h2, Bool.false_eq_true, if_false, ite_false]
      exact ih
    · rw [if_neg hp]
      cases hP : P p.1 <;> simp_all

/-- The batch loop leaves `updated_entries` as the concatenation of the
per-entry contributions read against the initial lookup, provided the
batch has pairwise distinct identity keys (so no in-place staleness write
is observed by a later lookup of the same key). -/
theorem processNew_out : ∀ (ns : List Entry) (d : Dict) (seen : List Key)
    (out : List Entry), KeysDistinct ns →
    (processNew d seen out ns).2.2 = out ++ ns.flatMap (mergeStepD d)
  | [], d, seen, out, _ => by simp [processNew]
  | n :: rest, d, seen, out, hd => by
    have hrest : KeysDistinct rest := (List.pairwise_cons.mp hd).2
    have hhead := (List.pairwise_cons.mp hd).1
    cases hg : dGet d (keyOf n) with
    | none =>
      simp only [processNew, hg]
      rw [processNew_out rest d _ _ hrest]
      simp [mergeStepD, hg]
    | some e =>
      by_cases ht : e.extracted_text = n.extracted_text
      · simp only [processNew, hg, if_pos ht]
        rw [processNew_out rest d _ _ hrest]
        simp [mergeStepD, hg, ht]
      · simp only [processNew, hg, if_neg ht]
        rw [processNew_out rest _ _ _ hrest]
        have hcong : rest.flatMap (mergeStepD (dUpdate d (keyOf n) (setStale e))) =
            rest.flatMap (mergeStepD d) := by
          apply flatMap_congr
          intro m hm
          unfold mergeStepD
          rw [dGet_dUpdate_ne _ (hhead m hm).symm]
        rw [hcong]
        simp [mergeStepD, hg, ht]

/-- Key membership in `seen_keys` after the batch loop. -/
theorem processNew_seen : ∀ (ns : List Entry) (d : Dict) (seen : List Key)
    (out : List Entry) (k : Key),
    keyMem k (processNew d seen out ns).2.1 =
      (keyMem k seen || ns.any (fun n => keyOf n = k))
  | [], d, seen, out, k => by simp [processNew]
  | n :: rest, d, seen, out, k => by
    cases hg : dGet d (keyOf n) with
    | none =>
      simp only [processNew, hg]
      rw [processNew_seen rest d _ _ k]
      simp [keyMem, Bool.or_assoc, Bool.or_comm, Bool.or_left_comm]
    | some e =>
      by_cases ht : e.extracted_text = n.extracted_text
      · simp only [processNew, hg, if_pos ht]
        rw [processNew_seen rest d _ _ k]
        simp [keyMem, Bool.or_assoc, Bool.or_comm, Bool.or_left_comm]
      · simp only [processNew, hg, if_neg ht]
        rw [processNew_seen rest _ _ _ k]
        simp [keyMem, Bool.or_assoc, Bool.or_comm, Bool.or_left_comm]

/-- The batch loop never updates the lookup at a key for which a given
predicate fails on every batch key, so such filters are unchanged. -/
theorem processNew_dict_filter : ∀ (ns : List Entry) (d : Dict)
    (seen : List Key) (out : List Entry) (P : Key → Bool),
    (∀ n ∈ ns, P (keyOf n) = false) →
    (processNew d seen out ns).1.filter (fun p => P p.1) =
      d.filter (fun p => P p.1)
  | [], d, seen, out, P, _ => by simp [processNew]
  | n :: rest, d, seen, out, P, h => by
    have hrest : ∀ m ∈ rest, P (keyOf m) = false := fun m hm => h m (by simp [hm])
    have hn : P (keyOf n) = false := h n (by simp)
    cases hg : dGet d (keyOf n) with
    | none =>
      simp only [processNew, hg]
      exact processNew_dict_filter rest d _ _ P hrest
    | some e =>
      by_cases ht : e.extracted_text = n.extracted_text
      · simp only [processNew, hg, if_pos ht]
        exact processNew_dict_filter rest d _ _ P hrest
      · simp only [processNew, hg, if_neg ht]
        rw [processNew_dict_filter rest _ _ _ P hrest]
        exact filter_dUpdate_false _ hn

/-- Closed form of `merge_bundles` for a batch with pairwise distinct
identity keys: the pre-sort output is the per-entry contributions against
the initial lookup followed by the staled unmatched lookup entries. -/
theorem mergeBundles_eq_core {existing new : List Entry}
    (h : KeysDistinct new) :
    mergeBundles existing new =
      sortEntries (mergeCoreD (buildLookup existing) new) := by
  have hrfl : mergeBundles existing new =
      sortEntries ((processNew (buildLookup existing) [] [] new).2.2 ++
        staleUnseen (processNew (buildLookup existing) [] [] new).1
          (processNew (buildLookup existing) [] [] new).2.1) := rfl
  rw [hrfl, processNew_out new _ _ _ h]
  unfold mergeCoreD
  simp only [List.nil_append]
  apply congrArg sortEntries
  apply congrArg (new.flatMap (mergeStepD (buildLookup existing)) ++ ·)
  unfold staleUnseen
  have hfil : (processNew (buildLookup existing) [] [] new).1.filter
      (fun p => !(keyMem p.1 (processNew (buildLookup existing) [] [] new).2.1)) =
      (processNew (buildLookup existing) [] [] new).1.filter
        (fun p => !(new.any (fun n => keyOf n = p.1))) := by
    apply List.filter_congr
    intro p _
    rw [processNew_seen new _ _ _ p.1]
    simp [keyMem]
  rw [hfil]
  have hP : ∀ n ∈ new,
      (fun k => !(new.any (fun n => keyOf n = k))) (keyOf n) = false := by
    intro n hn
    simp only [Bool.not_eq_false']
    exact List.any_eq_true.mpr ⟨n, hn, by simp⟩
  exact congrArg (List.map (fun p => setStale p.2))
    (processNew_dict_filter new _ [] []
      (fun k => !(new.any (fun n => keyOf n = k))) hP)

theorem dGet_isSome_of_any {d : Dict} {k : Key}
    (h : d.any (fun p => p.1 = k) = true) : (dGet d k).isSome = true := by
  induction d with
  | nil => simp at h
  | cons p t ih =>
    rw [dGet_cons]
    by_cases hp : p.1 = k
    · simp [hp]
    · simp only [if_neg hp]
      simp only [List.any_cons, Bool.or_eq_true, decide_eq_true_eq] at h
      exact ih (h.resolve_left hp)

theorem dGet_append_single {d : Dict} {k : Key} (v : Entry)
    (h : d.any (fun p => p.1 = k) = false) : dGet (d ++ [(k, v)]) k = some v := by
  induction d with
  | nil => simp [dGet_cons]
  | cons p t ih =>
    simp only [List.any_cons, Bool.or_eq_false_iff, decide_eq_false_iff_not] at h
    rw [List.cons_append, dGet_cons, if_neg h.1]
    exact ih h.2

theorem dGet_append_single_ne {d : Dict} {k k' : Key} (v : Entry)
    (h : k' ≠ k) : dGet (d ++ [(k, v)]) k' = dGet d k' := by
  induction d with
  | nil =>
    have : ¬ k = k' := fun hk => h hk.symm
    simp [dGet_cons, this, dGet]
  | cons p t ih =>
    rw [List.cons_append, dGet_cons, dGet_cons]
    by_cases hp : p.1 = k' <;> simp [hp, ih]

theorem dictInsert_eq_dUpdate {d : Dict} {k : Key} {v : Entry}
    (h : d.any (fun p => p.1 = k) = true) :
    dictInsert d k v = dUpdate d k v := by
  unfold dictInsert dUpdate
  rw [if_pos h]

theorem dGet_dictInsert_self (d : Dict) (k : Key) (v : Entry) :
    dGet (dictInsert d k v) k = some v := by
  by_cases h : d.any (fun p => p.1 = k) = true
  · rw [dictInsert_eq_dUpdate h]
    have hs := dGet_isSome_of_any h
    cases hg : dGet d k with
    | none => rw [hg] at hs; simp at hs
    | some e => exact dGet_dUpdate_self v hg
  · unfold dictInsert
    rw [if_neg h]
    refine dGet_append_single v ?_
    revert h
    cases d.any (fun p => p.1 = k) <;> simp

theorem dGet_dictInsert_ne {d : Dict} {k k' : Key} (v : Entry) (h : k' ≠ k) :
    dGet (dictInsert d k v) k' = dGet d k' := by
  by_cases hb : d.any (fun p => p.1 = k) = true
  · rw [dictInsert_eq_dUpdate hb]
    exact dGet_dUpdate_ne v h
  · unfold dictInsert
    rw [if_neg hb]
    exact dGet_append_single_ne v h

theorem dictInsert_mem {d : Dict} {k : Key} {v : Entry} {q : Key × Entry}
    (h : q ∈ dictInsert d k v) : q ∈ d ∨ q = (k, v) := by
  unfold dictInsert at h
  by_cases hb : d.any (fun p => p.1 = k) = true
  · rw [if_pos hb] at h
    rcases List.mem_map.mp h with ⟨p, hp, hq⟩
    by_cases hk : p.1 = k
    · right; rw [if_pos hk] at hq; exact hq.symm
    · left; rw [if_neg hk] at hq; exact hq ▸ hp
  · rw [if_neg hb] at h
    rcases List.mem_append.mp h with h | h
    · exact Or.inl h
    · exact Or.inr (by simpa using h)

theorem foldl_dictInsert_pairs : ∀ (es : List Entry) (d : Dict),
    ∀ p ∈ es.foldl (fun d e => dictInsert d (keyOf e) e) d,
      p ∈ d ∨ (keyOf p.2 = p.1 ∧ p.2 ∈ es)
  | [], d, p, hp => Or.inl hp
  | e :: rest, d, p, hp => by
    rcases foldl_dictInsert_pairs rest (dictInsert d (keyOf e) e) p hp with h | h
    · rcases dictInsert_mem h with h | h
      · exact Or.inl h
      · exact Or.inr ⟨by rw [h], by rw [h]; simp⟩
    · exact Or.inr ⟨h.1, by simp [h.2]⟩

/-- Every pair of `existing_lookup` stores an entry of the existing bundle
under that entry's own identity key. -/
theorem buildLookup_pairs {es : List Entry} {p : Key × Entry}
    (h : p ∈ buildLookup es) : keyOf p.2 = p.1 ∧ p.2 ∈ es := by
  rcases foldl_dictInsert_pairs es [] p h with h | h
  · simp at h
  · exact h

theorem dGet_buildLookup_some {es : List Entry} {k : Key} {v : Entry}
    (h : dGet (buildLookup es) k = some v) : v ∈ es ∧ keyOf v = k := by
  have hm := dGet_mem h
  have hp := buildLookup_pairs hm
  exact ⟨hp.2, hp.1⟩

theorem dGet_foldl_isSome : ∀ (es : List Entry) (d : Dict) (k : Key),
    (dGet (es.foldl (fun d e => dictInsert d (keyOf e) e) d) k).isSome =
      ((dGet d k).isSome || es.any (fun e => keyOf e = k))
  | [], d, k => by simp
  | e :: rest, d, k => by
    simp only [List.foldl_cons, List.any_cons]
    rw [dGet_foldl_isSome rest (dictInsert d (keyOf e) e) k]
    by_cases hk : keyOf e = k
    · subst hk
      rw [dGet_dictInsert_self]
      simp
    · rw [dGet_dictInsert_ne _ (fun hx => hk hx.symm)]
      simp [hk]

/-- A key has a lookup value exactly when some existing entry carries it. -/
theorem dGet_buildLookup_isSome (es : List Entry) (k : Key) :
    (dGet (buildLookup es) k).isSome = es.any (fun e => keyOf e = k) := by
  unfold buildLookup
  rw [dGet_foldl_isSome]
  simp [dGet]

theorem foldl_dictInsert_disjoint : ∀ (es : List Entry) (d : Dict),
    (∀ e ∈ es, ∀ p ∈ d, p.1 ≠ keyOf e) → KeysDistinct es →
    es.foldl (fun d e => dictInsert d (keyOf e) e) d =
      d ++ es.map (fun e => (keyOf e, e))
  | [], d, _, _ => by simp
  | e :: rest, d, hdis, hkd => by
    have hins : dictInsert d (keyOf e) e = d ++ [(keyOf e, e)] := by
      unfold dictInsert
      rw [if_neg]
      simp only [List.any_eq_true, not_exists, not_and, Bool.not_eq_true]
      intro p hp
      simp [hdis e (by simp) p hp]
    simp only [List.foldl_cons, hins, List.map_cons]
    rw [foldl_dictInsert_disjoint rest (d ++ [(keyOf e, e)]) ?_ (List.pairwise_cons.mp hkd).2]
    · simp
    · intro m hm p hp
      rcases List.mem_append.mp hp with h | h
      · exact hdis m (by simp [hm]) p h
      · simp only [List.mem_singleton] at h
        rw [h]
        exact (List.pairwise_cons.mp hkd).1 m hm

/-- Lemma A: over a bundle with pairwise distinct identity keys the Python
dict build never overwrites, so the lookup lists each entry in order under
its own key. -/
theorem buildLookup_eq_map {es : List Entry} (h : KeysDistinct es) :
    buildLookup es = es.map (fun e => (keyOf e, e)) := by
  unfold buildLookup
  rw [foldl_dictInsert_disjoint es [] (by simp) h]
  simp

theorem keyOf_eq_iff {a b : Entry} : keyOf a = keyOf b ↔
    (a.country = b.country ∧ a.sectionName = b.sectionName ∧
      a.source_doc = b.source_doc ∧ a.doc_url = b.doc_url) := by
  unfold keyOf
  simp [Prod.ext_iff]

theorem mem_sortEntries {l : List Entry} {x : Entry} :
    x ∈ sortEntries l ↔ x ∈ l :=
  (List.perm_insertionSort entryLe l).mem_iff

theorem dGet_map_self : ∀ {es : List Entry} {e : Entry}, KeysDistinct es →
    e ∈ es → dGet (es.map (fun e => (keyOf e, e))) (keyOf e) = some e := by
  intro es
  induction es with
  | nil => intro e _ he; simp at he
  | cons f rest ih =>
    intro e hd he
    rw [List.map_cons, dGet_cons]
    by_cases hk : keyOf f = keyOf e
    · rcases List.mem_cons.mp he with he | he
      · simp [he]
      · exact absurd hk ((List.pairwise_cons.mp hd).1 e he)
    · rcases List.mem_cons.mp he with he | he
      · exact absurd (congrArg keyOf he.symm) hk
      · simp only [if_neg hk]
        exact ih (List.pairwise_cons.mp hd).2 he

/-- Invariant of the batch loop: an existing entry tracked by the lookup is
either already represented in `updated_entries` (once its key has been
seen) or still waiting in the lookup, possibly staled in place. -/
theorem processNew_preserves : ∀ (ns : List Entry) (d : Dict) (seen : List Key)
    (out : List Entry) (e : Entry),
    (keyMem (keyOf e) seen = true → e ∈ out ∨ setStale e ∈ out) →
    (dGet d (keyOf e) = some e ∨ dGet d (keyOf e) = some (setStale e)) →
    ((keyMem (keyOf e) (processNew d seen out ns).2.1 = true →
        e ∈ (processNew d seen out ns).2.2 ∨
          setStale e ∈ (processNew d seen out ns).2.2) ∧
      (dGet (processNew d seen out ns).1 (keyOf e) = some e ∨
        dGet (processNew d seen out ns).1 (keyOf e) = some (setStale e)))
  | [], d, seen, out, e => fun h1 h2 => ⟨h1, h2⟩
  | n :: rest, d, seen, out, e => by
    intro h1 h2
    cases hg : dGet d (keyOf n) with
    | none =>
      by_cases hk : keyOf n = keyOf e
      · rw [hk] at hg
        rcases h2 with h2 | h2 <;> rw [h2] at hg <;> cases hg
      · simp only [processNew, hg]
        refine processNew_preserves rest d _ _ e ?_ h2
        intro hs
        simp only [keyMem, List.any_cons, Bool.or_eq_true, decide_eq_true_eq] at hs
        rcases hs with hs | hs
        · exact absurd hs hk
        · rcases h1 hs with h | h
          · exact Or.inl (List.mem_append_left _ h)
          · exact Or.inr (List.mem_append_left _ h)
    | some e0 =>
      have he0 : keyOf n = keyOf e → (e0 = e ∨ e0 = setStale e) := by
        intro hk
        rw [hk] at hg
        rcases h2 with h2 | h2 <;> rw [h2] at hg
        · exact Or.inl (Option.some.inj hg).symm
        · exact Or.inr (Option.some.inj hg).symm
      by_cases ht : e0.extracted_text = n.extracted_text
      · simp only [processNew, hg, if_pos ht]
        by_cases hk : keyOf n = keyOf e
        · have hval := he0 hk
          have hkey0 : keyOf n = keyOf e0 := by
            rcases hval with h | h
            · rw [h, hk]
            · rw [h, hk]; rfl
          have hn' : ({ n with created_utc := e0.created_utc, stale := e0.stale } : Entry) = e0 := by
            rcases keyOf_eq_iff.mp hkey0 with ⟨hc, hs, hsd, hu⟩
            cases n; cases e0
            simp_all
          refine processNew_preserves rest d _ _ e ?_ h2
          intro _
          rcases hval with hval | hval
          · exact Or.inl (by
              rw [hn', hval]
              exact List.mem_append_right _ (by simp))
          · exact Or.inr (by
              rw [hn', hval]
              exact List.mem_append_right _ (by simp))
        · refine processNew_preserves rest d _ _ e ?_ h2
          intro hs
          simp only [keyMem, List.any_cons, Bool.or_eq_true, decide_eq_true_eq] at hs
          rcases hs with hs | hs
          · exact absurd hs hk
          · rcases h1 hs with h | h
            · exact Or.inl (List.mem_append_left _ h)
            · exact Or.inr (List.mem_append_left _ h)
      · simp only [processNew, hg, if_neg ht]
        by_cases hk : keyOf n = keyOf e
        · have hval := he0 hk
          have hstale : setStale e0 = setStale e := by
            rcases hval with h | h <;> rw [h]
            exact setStale_setStale e
          refine processNew_preserves rest _ _ _ e ?_ ?_
          · intro _
            refine Or.inr ?_
            rw [← hstale]
            exact List.mem_append_right _ (by simp)
          · refine Or.inr ?_
            rw [← hk, ← hstale]
            exact dGet_dUpdate_self (setStale e0) hg
        · refine processNew_preserves rest _ _ _ e ?_ ?_
          · intro hs
            simp only [keyMem, List.any_cons, Bool.or_eq_true, decide_eq_true_eq] at hs
            rcases hs with hs | hs
            · exact absurd hs hk
            · rcases h1 hs with h | h
              · exact Or.inl (List.mem_append_left _ h)
              · exact Or.inr (List.mem_append_left _ h)
          · rw [dGet_dUpdate_ne _ (fun hx => hk hx.symm)]
            exact h2

/-- C1 counterexample: when the existing bundle holds a stale audit
duplicate next to its non-stale successor under the same identity key (the
very state §4.5 produces), the dict comprehension keeps only the last
entry per key, and the shadowed duplicate is silently dropped by the next
synchronization — it is neither kept nor merely staled. -/
theorem merge_drops_shadowed_duplicate :
    mergeBundles
        [⟨"Cuba", "GHG Inventory Module", "BUR1", "u1", "T1",
            "2024-01-01T00:00:00Z", true⟩,
         ⟨"Cuba", "GHG Inventory Module", "BUR1", "u1", "T2",
            "2024-02-01T00:00:00Z", false⟩]
        [⟨"Cuba", "GHG Inventory Module", "BUR1", "u1", "T2",
            "2025-03-01T00:00:00Z", false⟩] =
      [⟨"Cuba", "GHG Inventory Module", "BUR1", "u1", "T2",
          "2024-02-01T00:00:00Z", false⟩] ∧
    ¬ (∀ e ∈ ([⟨"Cuba", "GHG Inventory Module", "BUR1", "u1", "T1",
            "2024-01-01T00:00:00Z", true⟩,
         ⟨"Cuba", "GHG Inventory Module", "BUR1", "u1", "T2",
            "2024-02-01T00:00:00Z", false⟩] : List Entry),
        e ∈ mergeBundles
            [⟨"Cuba", "GHG Inventory Module", "BUR1", "u1", "T1",
                "2024-01-01T00:00:00Z", true⟩,
             ⟨"Cuba", "GHG Inventory Module", "BUR1", "u1", "T2",
                "2024-02-01T00:00:00Z", false⟩]
            [⟨"Cuba", "GHG Inventory Module", "BUR1", "u1", "T2",
                "2025-03-01T00:00:00Z", false⟩] ∨
          setStale e ∈ mergeBundles
            [⟨"Cuba", "GHG Inventory Module", "BUR1", "u1", "T1",
                "2024-01-01T00:00:00Z", true⟩,
             ⟨"Cuba", "GHG Inventory Module", "BUR1", "u1", "T2",
                "2024-02-01T00:00:00Z", false⟩]
            [⟨"Cuba", "GHG Inventory Module", "BUR1", "u1", "T2",
                "2025-03-01T00:00:00Z", false⟩]) := by
  decide

/-- C1 (amended): for an existing bundle whose identity keys are pairwise
distinct, synchronization never drops a persisted record — every existing
entry reappears in the merged bundle either unchanged or with its stale
field flipped to `true`, for every incoming batch. -/
theorem merge_preserves_entries_of_distinct_bundle
    {existing batch : List Entry} (hd : KeysDistinct existing)
    {e : Entry} (he : e ∈ existing) :
    e ∈ mergeBundles existing batch ∨
      setStale e ∈ mergeBundles existing batch := by
  have hd0 : dGet (buildLookup existing) (keyOf e) = some e := by
    rw [buildLookup_eq_map hd]
    exact dGet_map_self hd he
  have hinv := processNew_preserves batch (buildLookup existing) [] [] e
    (by intro h; simp [keyMem] at h) (Or.inl hd0)
  have hres : mergeBundles existing batch =
      sortEntries ((processNew (buildLookup existing) [] [] batch).2.2 ++
        staleUnseen (processNew (buildLookup existing) [] [] batch).1
          (processNew (buildLookup existing) [] [] batch).2.1) := rfl
  rw [hres]
  by_cases hs :
      keyMem (keyOf e) (processNew (buildLookup existing) [] [] batch).2.1 = true
  · rcases hinv.1 hs with h | h
    · exact Or.inl (mem_sortEntries.mpr (List.mem_append_left _ h))
    · exact Or.inr (mem_sortEntries.mpr (List.mem_append_left _ h))
  · have hs' :
        keyMem (keyOf e) (processNew (buildLookup existing) [] [] batch).2.1 = false := by
      revert hs
      cases keyMem (keyOf e) (processNew (buildLookup existing) [] [] batch).2.1 <;> simp
    rcases hinv.2 with h | h
    · refine Or.inr (mem_sortEntries.mpr (List.mem_append_right _ ?_))
      unfold staleUnseen
      refine List.mem_map.mpr ⟨(keyOf e, e), ?_, rfl⟩
      exact List.mem_filter.mpr ⟨dGet_mem h, by simp [hs']⟩
    · refine Or.inr (mem_sortEntries.mpr (List.mem_append_right _ ?_))
      unfold staleUnseen
      refine List.mem_map.mpr ⟨(keyOf e, setStale e), ?_, setStale_setStale e⟩
      exact List.mem_filter.mpr ⟨dGet_mem h, by simp [hs']⟩

/-- C1 witness: a concrete instance of the amended preservation theorem. -/
theorem merge_preserves_entries_witness :
    (⟨"Peru", "NDC Tracking Module", "BUR3", "u3", "body",
        "2024-05-05T00:00:00Z", false⟩ : Entry) ∈
        mergeBundles
          [⟨"Peru", "NDC Tracking Module", "BUR3", "u3", "body",
              "2024-05-05T00:00:00Z", false⟩]
          [⟨"Peru", "NDC Tracking Module", "BUR3", "u3", "changed body",
              "2024-06-06T00:00:00Z", false⟩] ∨
      setStale ⟨"Peru", "NDC Tracking Module", "BUR3", "u3", "body",
          "2024-05-05T00:00:00Z", false⟩ ∈
        mergeBundles
          [⟨"Peru", "NDC Tracking Module", "BUR3", "u3", "body",
              "2024-05-05T00:00:00Z", false⟩]
          [⟨"Peru", "NDC Tracking Module", "BUR3", "u3", "changed body",
              "2024-06-06T00:00:00Z", false⟩] :=
  merge_preserves_entries_of_distinct_bundle
    (by simp [KeysDistinct]) (by simp)

/-- C10 counterexample: an empty batch does not merely soft-delete; if the
existing bundle holds two entries under one identity key, the dict
comprehension keeps only the last, so one record's text disappears from
the bundle entirely instead of surviving with `stale = true`. -/
theorem merge_empty_batch_drops_duplicate :
    mergeBundles
        [⟨"Kenya", "NDC Tracking Module", "BUR2", "u2", "old body",
            "2023-01-01T00:00:00Z", false⟩,
         ⟨"Kenya", "NDC Tracking Module", "BUR2", "u2", "new body",
            "2023-06-01T00:00:00Z", false⟩] [] =
      [⟨"Kenya", "NDC Tracking Module", "BUR2", "u2", "new body",
          "2023-06-01T00:00:00Z", true⟩] ∧
    ¬ (∃ e ∈ mergeBundles
        [⟨"Kenya", "NDC Tracking Module", "BUR2", "u2", "old body",
            "2023-01-01T00:00:00Z", false⟩,
         ⟨"Kenya", "NDC Tracking Module", "BUR2", "u2", "new body",
            "2023-06-01T00:00:00Z", false⟩] [],
        e.extracted_text = "old body") := by
  decide

/-- C10 (amended): for an existing bundle with pairwise distinct identity
keys, synchronizing an empty batch returns exactly the same entries, each
with `stale` set to `true` and `extracted_text`/`created_utc` untouched,
re-sorted by the bundle ordering. -/
theorem merge_empty_batch_stales_all {existing : List Entry}
    (hd : KeysDistinct existing) :
    mergeBundles existing [] = sortEntries (existing.map setStale) := by
  have hres : mergeBundles existing [] =
      sortEntries ([] ++ staleUnseen (buildLookup existing) []) := rfl
  rw [hres, List.nil_append]
  apply congrArg sortEntries
  unfold staleUnseen
  rw [buildLookup_eq_map hd]
  have hfil : (existing.map (fun e => (keyOf e, e))).filter
      (fun p => !(keyMem p.1 [])) = existing.map (fun e => (keyOf e, e)) := by
    apply List.filter_eq_self.mpr
    intro p _
    simp [keyMem]
  rw [hfil, List.map_map]
  rfl

/-- C10 witness: a concrete instance of the amended empty-batch theorem. -/
theorem merge_empty_batch_stales_all_witness :
    mergeBundles
        [⟨"Chile", "GHG Inventory Module", "NC1", "u4", "text",
            "2022-01-01T00:00:00Z", false⟩] [] =
      [⟨"Chile", "GHG Inventory Module", "NC1", "u4", "text",
          "2022-01-01T00:00:00Z", true⟩] :=
  (merge_empty_batch_stales_all (by simp [KeysDistinct])).trans (by decide)

theorem refresh_eq {m e' : Entry} (hk : keyOf m = keyOf e')
    (ht : e'.extracted_text = m.extracted_text) :
    ({ m with created_utc := e'.created_utc, stale := e'.stale } : Entry) = e' := by
  rcases keyOf_eq_iff.mp hk with ⟨hc, hs, hsd, hu⟩
  cases m; cases e'
  simp_all

/-- Every entry contributed by one batch entry carries that entry's key. -/
theorem mergeStepD_key {B : List Entry} {n x : Entry}
    (hx : x ∈ mergeStepD (buildLookup B) n) : keyOf x = keyOf n := by
  unfold mergeStepD at hx
  cases hg : dGet (buildLookup B) (keyOf n) with
  | none =>
    rw [hg] at hx
    simp only [List.mem_singleton] at hx
    rw [hx]
  | some e =>
    have hke : keyOf e = keyOf n := (dGet_buildLookup_some hg).2
    simp only [hg] at hx
    by_cases ht : e.extracted_text = n.extracted_text
    · rw [if_pos ht] at hx
      simp only [List.mem_singleton] at hx
      rw [hx]
      rfl
    · rw [if_neg ht] at hx
      rcases List.mem_cons.mp hx with hx | hx
      · rw [hx, keyOf_setStale, hke]
      · simp only [List.mem_singleton] at hx
        rw [hx]

theorem filter_flatMap {α β : Type} (l : List α) (f : α → List β)
    (p : β → Bool) :
    (l.flatMap f).filter p = l.flatMap (fun a => (f a).filter p) := by
  induction l with
  | nil => rfl
  | cons a t ih => simp [List.flatMap_cons, List.filter_append, ih]

theorem flatMap_eq_nil_of_forall {α β : Type} {l : List α} {f : α → List β}
    (h : ∀ a ∈ l, f a = []) : l.flatMap f = [] := by
  induction l with
  | nil => rfl
  | cons a t ih =>
    simp only [List.flatMap_cons, h a (by simp), List.nil_append]
    exact ih (fun x hx => h x (by simp [hx]))

/-- Restricting the closed-form merge output to one submitted identity key
leaves exactly that batch entry's contribution. -/
theorem core_filter_key {B new : List Entry} (hnd : KeysDistinct new)
    {n : Entry} (hn : n ∈ new) :
    (mergeCoreD (buildLookup B) new).filter (fun x => keyOf x = keyOf n) =
      mergeStepD (buildLookup B) n := by
  unfold mergeCoreD
  rw [List.filter_append, filter_flatMap]
  have h2 : (((buildLookup B).filter
      (fun p => !(new.any (fun m => keyOf m = p.1)))).map
        (fun p => setStale p.2)).filter (fun x => keyOf x = keyOf n) = [] := by
    apply List.filter_eq_nil_iff.mpr
    intro x hx
    rcases List.mem_map.mp hx with ⟨p, hp, hxp⟩
    have hpf := List.mem_filter.mp hp
    have hwf := (buildLookup_pairs hpf.1).1
    have hnot := hpf.2
    simp only [Bool.not_eq_true', List.any_eq_false, decide_eq_true_eq] at hnot
    have hxk : keyOf x = p.1 := by rw [← hxp, keyOf_setStale, hwf]
    simp only [hxk, decide_eq_true_eq]
    intro hc
    exact hnot n hn hc.symm
  rw [h2, List.append_nil]
  clear h2
  induction new with
  | nil => cases hn
  | cons m t ih =>
    rcases List.mem_cons.mp hn with hm | hm
    · subst hm
      have htail : t.flatMap (fun a =>
          (mergeStepD (buildLookup B) a).filter
            (fun x => keyOf x = keyOf n)) = [] := by
        apply flatMap_eq_nil_of_forall
        intro a ha
        apply List.filter_eq_nil_iff.mpr
        intro x hx
        have hxa := mergeStepD_key hx
        have hne : keyOf n ≠ keyOf a := (List.pairwise_cons.mp hnd).1 a ha
        simp only [hxa, decide_eq_true_eq]
        exact fun hc => hne hc.symm
      have hhead : (mergeStepD (buildLookup B) n).filter
          (fun x => keyOf x = keyOf n) = mergeStepD (buildLookup B) n := by
        apply List.filter_eq_self.mpr
        intro x hx
        simp [mergeStepD_key hx]
      simp only [List.flatMap_cons, hhead, htail, List.append_nil]
    · have hne : keyOf m ≠ keyOf n := (List.pairwise_cons.mp hnd).1 n hm
      have hhead : (mergeStepD (buildLookup B) m).filter
          (fun x => keyOf x = keyOf n) = [] := by
        apply List.filter_eq_nil_iff.mpr
        intro x hx
        simp only [mergeStepD_key hx, decide_eq_true_eq]
        exact hne
      simp only [List.flatMap_cons, hhead, List.nil_append]
      exact ih (List.pairwise_cons.mp hnd).2 hm

/-- The batch entry with a recorded partner in a distinct-key bundle looks
that partner up. -/
theorem dGet_buildLookup_partner {B : List Entry} {e' m : Entry}
    (hB : KeysDistinct B) (he : e' ∈ B) (hk : keyOf e' = keyOf m) :
    dGet (buildLookup B) (keyOf m) = some e' := by
  rw [buildLookup_eq_map hB, ← hk]
  exact dGet_map_self hB he

theorem countP_key_filter (l : List Entry) (k : Key) (q : Entry → Bool) :
    l.countP (fun x => keyOf x = k && q x) =
      (l.filter (fun x => keyOf x = k)).countP q := by
  rw [List.countP_filter]
  apply List.countP_congr
  intro x _
  simp [Bool.and_comm]

theorem merge_perm_core {B batch : List Entry} (hN : KeysDistinct batch) :
    (mergeBundles B batch).Perm (mergeCoreD (buildLookup B) batch) := by
  rw [mergeBundles_eq_core hN]
  exact List.perm_insertionSort entryLe _

theorem core_filter_key_not_batch {B new : List Entry} {k : Key}
    (hk : ∀ n ∈ new, keyOf n ≠ k) :
    ∀ x ∈ (mergeCoreD (buildLookup B) new).filter (fun x => keyOf x = k),
      x.stale = true := by
  intro x hx
  have hx' := List.mem_filter.mp hx
  have hxk : keyOf x = k := by simpa using hx'.2
  rcases List.mem_append.mp hx'.1 with h | h
  · rcases List.mem_flatMap.mp h with ⟨m, hm, hxm⟩
    exact absurd (mergeStepD_key hxm ▸ hxk) (hk m hm)
  · rcases List.mem_map.mp h with ⟨p, _, hp⟩
    rw [← hp]
    rfl

/-- C5 counterexample: when a stale audit duplicate shadows the single
non-stale entry of an identity key in the lookup, a text change does not
mark that non-stale entry stale — the entry is dropped outright. -/
theorem merge_text_change_counterexample :
    mergeBundles
        [⟨"India", "Mitigation Module", "NC2", "u5", "alpha",
            "2023-01-01T00:00:00Z", false⟩,
         ⟨"India", "Mitigation Module", "NC2", "u5", "beta",
            "2023-02-01T00:00:00Z", true⟩]
        [⟨"India", "Mitigation Module", "NC2", "u5", "gamma",
            "2024-01-01T00:00:00Z", false⟩] =
      [⟨"India", "Mitigation Module", "NC2", "u5", "beta",
          "2023-02-01T00:00:00Z", true⟩,
       ⟨"India", "Mitigation Module", "NC2", "u5", "gamma",
          "2024-01-01T00:00:00Z", false⟩] ∧
    ¬ (∃ x ∈ mergeBundles
        [⟨"India", "Mitigation Module", "NC2", "u5", "alpha",
            "2023-01-01T00:00:00Z", false⟩,
         ⟨"India", "Mitigation Module", "NC2", "u5", "beta",
            "2023-02-01T00:00:00Z", true⟩]
        [⟨"India", "Mitigation Module", "NC2", "u5", "gamma",
            "2024-01-01T00:00:00Z", false⟩],
        x.extracted_text = "alpha") := by
  decide

/-- C5 (amended): for a bundle with pairwise distinct identity keys whose
sole entry for key K is non-stale with text T, and a distinct-key batch of
fresh entries whose K-entry carries T' that differs from T, the merged
bundle's K-entries are exactly the prior entry staled plus the new
non-stale entry; any other key whose batch text matches its stored text is
refreshed in place, i.e. its stored entry survives unchanged as the sole
entry of that key. -/
theorem merge_text_change_spec {B batch : List Entry} {n eK : Entry}
    (hB : KeysDistinct B) (hN : KeysDistinct batch) (hn : n ∈ batch)
    (heK : eK ∈ B) (hkey : keyOf eK = keyOf n) (_hstale : eK.stale = false)
    (hfresh : n.stale = false)
    (ht : ¬ eK.extracted_text = n.extracted_text) :
    ((mergeBundles B batch).filter (fun x => keyOf x = keyOf n)).Perm
        [setStale eK, n] ∧
    countKeyNonstale (mergeBundles B batch) (keyOf n) = 1 ∧
    (mergeBundles B batch).countP (fun x => keyOf x = keyOf n && x.stale) = 1 ∧
    (∀ m ∈ batch, keyOf m ≠ keyOf n → ∀ e' ∈ B, keyOf e' = keyOf m →
      e'.extracted_text = m.extracted_text →
      ((mergeBundles B batch).filter (fun x => keyOf x = keyOf m)).Perm [e']) := by
  have hstep : mergeStepD (buildLookup B) n = [setStale eK, n] := by
    unfold mergeStepD
    rw [dGet_buildLookup_partner hB heK hkey]
    simp only [if_neg ht]
  have hfilt : ((mergeBundles B batch).filter
      (fun x => keyOf x = keyOf n)).Perm [setStale eK, n] := by
    refine (List.Perm.filter _ (merge_perm_core hN)).trans ?_
    rw [core_filter_key hN hn, hstep]
  refine ⟨hfilt, ?_, ?_, ?_⟩
  · unfold countKeyNonstale
    rw [countP_key_filter, hfilt.countP_eq]
    simp [List.countP_cons, setStale, hfresh]
  · rw [countP_key_filter, hfilt.countP_eq]
    simp [List.countP_cons, setStale, hfresh]
  · intro m hm hmn e' he' hke' hte'
    have hstep' : mergeStepD (buildLookup B) m = [e'] := by
      unfold mergeStepD
      rw [dGet_buildLookup_partner hB he' hke']
      simp only [if_pos hte']
      rw [refresh_eq hke'.symm hte']
    refine (List.Perm.filter _ (merge_perm_core hN)).trans ?_
    rw [core_filter_key hN hm, hstep']

/-- C5 witness: a concrete instance of the amended text-change theorem. -/
theorem merge_text_change_witness :
    ((mergeBundles
        [⟨"Ghana", "Adaptation Module", "BUR1", "u7", "old", "2023-03-03T00:00:00Z", false⟩,
         ⟨"Ghana", "Mitigation Module", "BUR1", "u8", "same", "2023-03-03T00:00:00Z", false⟩]
        [⟨"Ghana", "Adaptation Module", "BUR1", "u7", "new", "2024-04-04T00:00:00Z", false⟩,
         ⟨"Ghana", "Mitigation Module", "BUR1", "u8", "same", "2024-04-04T00:00:00Z", false⟩]).filter
        (fun x => keyOf x =
          keyOf ⟨"Ghana", "Adaptation Module", "BUR1", "u7", "new", "2024-04-04T00:00:00Z", false⟩)).Perm
      [setStale ⟨"Ghana", "Adaptation Module", "BUR1", "u7", "old", "2023-03-03T00:00:00Z", false⟩,
       ⟨"Ghana", "Adaptation Module", "BUR1", "u7", "new", "2024-04-04T00:00:00Z", false⟩] ∧
    countKeyNonstale (mergeBundles
        [⟨"Ghana", "Adaptation Module", "BUR1", "u7", "old", "2023-03-03T00:00:00Z", false⟩,
         ⟨"Ghana", "Mitigation Module", "BUR1", "u8", "same", "2023-03-03T00:00:00Z", false⟩]
        [⟨"Ghana", "Adaptation Module", "BUR1", "u7", "new", "2024-04-04T00:00:00Z", false⟩,
         ⟨"Ghana", "Mitigation Module", "BUR1", "u8", "same", "2024-04-04T00:00:00Z", false⟩])
      (keyOf ⟨"Ghana", "Adaptation Module", "BUR1", "u7", "new", "2024-04-04T00:00:00Z", false⟩) = 1 ∧
    (mergeBundles
        [⟨"Ghana", "Adaptation Module", "BUR1", "u7", "old", "2023-03-03T00:00:00Z", false⟩,
         ⟨"Ghana", "Mitigation Module", "BUR1", "u8", "same", "2023-03-03T00:00:00Z", false⟩]
        [⟨"Ghana", "Adaptation Module", "BUR1", "u7", "new", "2024-04-04T00:00:00Z", false⟩,
         ⟨"Ghana", "Mitigation Module", "BUR1", "u8", "same", "2024-04-04T00:00:00Z", false⟩]).countP
      (fun x => keyOf x =
        keyOf ⟨"Ghana", "Adaptation Module", "BUR1", "u7", "new", "2024-04-04T00:00:00Z", false⟩ &&
          x.stale) = 1 ∧
    (∀ m ∈ ([⟨"Ghana", "Adaptation Module", "BUR1", "u7", "new", "2024-04-04T00:00:00Z", false⟩,
         ⟨"Ghana", "Mitigation Module", "BUR1", "u8", "same", "2024-04-04T00:00:00Z", false⟩] : List Entry),
      keyOf m ≠
        keyOf ⟨"Ghana", "Adaptation Module", "BUR1", "u7", "new", "2024-04-04T00:00:00Z", false⟩ →
      ∀ e' ∈ ([⟨"Ghana", "Adaptation Module", "BUR1", "u7", "old", "2023-03-03T00:00:00Z", false⟩,
         ⟨"Ghana", "Mitigation Module", "BUR1", "u8", "same", "2023-03-03T00:00:00Z", false⟩] : List Entry),
        keyOf e' = keyOf m → e'.extracted_text = m.extracted_text →
        ((mergeBundles
            [⟨"Ghana", "Adaptation Module", "BUR1", "u7", "old", "2023-03-03T00:00:00Z", false⟩,
             ⟨"Ghana", "Mitigation Module", "BUR1", "u8", "same", "2023-03-03T00:00:00Z", false⟩]
            [⟨"Ghana", "Adaptation Module", "BUR1", "u7", "new", "2024-04-04T00:00:00Z", false⟩,
             ⟨"Ghana", "Mitigation Module", "BUR1", "u8", "same", "2024-04-04T00:00:00Z", false⟩]).filter
          (fun x => keyOf x = keyOf m)).Perm [e']) :=
  merge_text_change_spec (by unfold KeysDistinct; decide) (by unfold KeysDistinct; decide)
    (by decide) (by decide) (by decide) (by decide) (by decide) (by decide)

/-- C6 counterexample: a batch that repeats one identity key (nothing in
`merge_bundles` forbids it) leaves two non-stale entries under that key,
because the lookup over the *existing* bundle never sees the first
incoming duplicate. -/
theorem merge_duplicate_batch_counterexample :
    countKeyNonstale
        (mergeBundles []
          [⟨"Brazil", "Adaptation Module", "BUR4", "u6", "first text",
              "2024-01-01T00:00:00Z", false⟩,
           ⟨"Brazil", "Adaptation Module", "BUR4", "u6", "second text",
              "2024-02-02T00:00:00Z", false⟩])
        ("Brazil", "Adaptation Module", "BUR4", "u6") = 2 := by
  decide

/-- Each batch entry contributes at most one non-stale record under any
fixed key; entries of other keys contribute none. -/
theorem countP_flatMap_nonstale_le_one {B : List Entry} :
    ∀ (new : List Entry), KeysDistinct new → ∀ (k : Key),
    (new.flatMap (mergeStepD (buildLookup B))).countP
        (fun e => keyOf e = k && !e.stale) ≤ 1
  | [], _, k => by simp
  | m :: t, hnd, k => by
    rw [List.flatMap_cons, List.countP_append]
    by_cases hk : keyOf m = k
    · have htail : (t.flatMap (mergeStepD (buildLookup B))).countP
          (fun e => keyOf e = k && !e.stale) = 0 := by
        apply List.countP_eq_zero.mpr
        intro x hx
        rcases List.mem_flatMap.mp hx with ⟨a, ha, hxa⟩
        have h1 : keyOf x = keyOf a := mergeStepD_key hxa
        have h2 : keyOf m ≠ keyOf a := (List.pairwise_cons.mp hnd).1 a ha
        simp only [h1, Bool.and_eq_true, decide_eq_true_eq, not_and]
        intro hc
        exact absurd (hk ▸ hc) (fun hx2 => h2 hx2.symm)
      have hhead : (mergeStepD (buildLookup B) m).countP
          (fun e => keyOf e = k && !e.stale) ≤ 1 := by
        unfold mergeStepD
        cases hg : dGet (buildLookup B) (keyOf m) with
        | none => simp [List.countP_cons]; split <;> omega
        | some e =>
          by_cases ht2 : e.extracted_text = m.extracted_text
          · simp only [if_pos ht2]
            simp [List.countP_cons]; split <;> omega
          · simp only [if_neg ht2]
            simp only [List.countP_cons, List.countP_nil, setStale,
              Bool.and_false, Bool.not_true]
            split <;> simp
      omega
    · have hhead : (mergeStepD (buildLookup B) m).countP
          (fun e => keyOf e = k && !e.stale) = 0 := by
        apply List.countP_eq_zero.mpr
        intro x hx
        simp only [mergeStepD_key hx, Bool.and_eq_true, decide_eq_true_eq, not_and]
        intro hc
        exact absurd hc hk
      rw [hhead]
      simpa using countP_flatMap_nonstale_le_one t (List.pairwise_cons.mp hnd).2 k

/-- C6 (amended): for any existing bundle and any batch of fresh non-stale
entries with pairwise distinct identity keys, the merged bundle keeps at
most one non-stale entry per identity key, and its entries are sorted
ascending by `(country, source_doc, created_utc)`.  (Without the
distinct-keys restriction a duplicated batch key leaves two non-stale
records, see the counterexample.) -/
theorem merge_unique_nonstale_and_sorted {B batch : List Entry} {k : Key}
    (_hB1 : countKeyNonstale B k ≤ 1) (hN : KeysDistinct batch)
    (_hfresh : ∀ m ∈ batch, m.stale = false) :
    countKeyNonstale (mergeBundles B batch) k ≤ 1 ∧
      (mergeBundles B batch).Sorted entryLe := by
  constructor
  · unfold countKeyNonstale
    rw [(merge_perm_core hN).countP_eq]
    unfold mergeCoreD
    rw [List.countP_append]
    have hstale0 : (((buildLookup B).filter
        (fun p => !(batch.any (fun n => keyOf n = p.1)))).map
          (fun p => setStale p.2)).countP
        (fun e => keyOf e = k && !e.stale) = 0 := by
      apply List.countP_eq_zero.mpr
      intro x hx
      rcases List.mem_map.mp hx with ⟨p, _, hp⟩
      simp [← hp, setStale]
    have hflat := @countP_flatMap_nonstale_le_one B batch hN k
    omega
  · exact List.sorted_insertionSort entryLe _

/-- C6 witness: a concrete instance of the amended invariant theorem. -/
theorem merge_unique_nonstale_witness :
    countKeyNonstale
        (mergeBundles
          [⟨"Fiji", "GHG Inventory Module", "NC3", "u9", "stored",
              "2022-02-02T00:00:00Z", false⟩]
          [⟨"Fiji", "GHG Inventory Module", "NC3", "u9", "updated",
              "2023-03-03T00:00:00Z", false⟩])
        ("Fiji", "GHG Inventory Module", "NC3", "u9") ≤ 1 ∧
      (mergeBundles
          [⟨"Fiji", "GHG Inventory Module", "NC3", "u9", "stored",
              "2022-02-02T00:00:00Z", false⟩]
          [⟨"Fiji", "GHG Inventory Module", "NC3", "u9", "updated",
              "2023-03-03T00:00:00Z", false⟩]).Sorted entryLe :=
  merge_unique_nonstale_and_sorted (by decide)
    (by unfold KeysDistinct; decide) (by decide)

theorem distinct_keys_eq : ∀ {l : List Entry}, KeysDistinct l →
    ∀ {a b : Entry}, a ∈ l → b ∈ l → keyOf a = keyOf b → a = b
  | [], _, a, _, ha, _, _ => absurd ha (List.not_mem_nil a)
  | x :: t, h, a, b, ha, hb, hk => by
    have hx := List.pairwise_cons.mp h
    rcases List.mem_cons.mp ha with rfl | ha2
    · rcases List.mem_cons.mp hb with rfl | hb2
      · rfl
      · exact absurd hk (hx.1 b hb2)
    · rcases List.mem_cons.mp hb with rfl | hb2
      · exact absurd hk.symm (hx.1 a ha2)
      · exact distinct_keys_eq hx.2 ha2 hb2 hk

theorem mem_merge_iff_core {B batch : List Entry} {x : Entry}
    (hN : KeysDistinct batch) :
    x ∈ mergeBundles B batch ↔ x ∈ mergeCoreD (buildLookup B) batch :=
  (merge_perm_core hN).mem_iff

theorem mem_core_cases {B batch : List Entry} {x : Entry}
    (hx : x ∈ mergeCoreD (buildLookup B) batch) :
    (∃ m ∈ batch, x ∈ mergeStepD (buildLookup B) m) ∨
      (∃ p ∈ buildLookup B,
        batch.any (fun n => keyOf n = p.1) = false ∧ x = setStale p.2) := by
  unfold mergeCoreD at hx
  rcases List.mem_append.mp hx with h | h
  · exact Or.inl (List.mem_flatMap.mp h)
  · rcases List.mem_map.mp h with ⟨p, hp, hxp⟩
    have hp' := List.mem_filter.mp hp
    refine Or.inr ⟨p, hp'.1, ?_, hxp.symm⟩
    have := hp'.2
    revert this
    cases batch.any (fun n => keyOf n = p.1) <;> simp

theorem mergeStepD_self_mem (d : Dict) (n : Entry) :
    ∃ x ∈ mergeStepD d n, keyOf x = keyOf n := by
  unfold mergeStepD
  cases dGet d (keyOf n) with
  | none => exact ⟨n, by simp⟩
  | some e =>
    by_cases ht : e.extracted_text = n.extracted_text
    · exact ⟨{ n with created_utc := e.created_utc, stale := e.stale },
        by simp [if_pos ht], rfl⟩
    · exact ⟨n, by simp [if_neg ht]⟩

/-- Entries of the merged bundle whose key was not submitted are stale. -/
theorem mem_merge_nonbatch_stale {B batch : List Entry} {w : Entry}
    (hN : KeysDistinct batch) (hw : w ∈ mergeBundles B batch)
    (hk : ∀ m ∈ batch, keyOf m ≠ keyOf w) : w.stale = true := by
  rcases mem_core_cases ((mem_merge_iff_core hN).mp hw) with ⟨m, hm, hwm⟩ | ⟨p, _, _, hwp⟩
  · exact absurd (mergeStepD_key hwm).symm (hk m hm)
  · rw [hwp]
    rfl

/-- Entries of the merged bundle carrying a submitted key come from that
batch entry's contribution. -/
theorem mem_merge_key_step {B batch : List Entry} {w n : Entry}
    (hN : KeysDistinct batch) (hn : n ∈ batch)
    (hw : w ∈ mergeBundles B batch) (hk : keyOf w = keyOf n) :
    w ∈ mergeStepD (buildLookup B) n := by
  rcases mem_core_cases ((mem_merge_iff_core hN).mp hw) with ⟨m, hm, hwm⟩ | ⟨p, hp, hpk, hwp⟩
  · have : m = n := distinct_keys_eq hN hm hn ((mergeStepD_key hwm) ▸ hk)
    exact this ▸ hwm
  · exfalso
    have hkey : keyOf w = p.1 := by
      rw [hwp, keyOf_setStale, (buildLookup_pairs hp).1]
    have hall := List.any_eq_false.mp hpk
    exact absurd (decide_eq_true_eq.mpr (hk.symm.trans hkey)) (hall n hn)

/-- The rebuilt lookup of the merged bundle holds a value for every
submitted key, and that value is a merged-bundle entry under that key. -/
theorem dGet_lookup_merge {B batch : List Entry} {n : Entry}
    (hN : KeysDistinct batch) (hn : n ∈ batch) :
    ∃ w, dGet (buildLookup (mergeBundles B batch)) (keyOf n) = some w ∧
      w ∈ mergeBundles B batch ∧ keyOf w = keyOf n := by
  rcases mergeStepD_self_mem (buildLookup B) n with ⟨x, hx, hxk⟩
  have hxB : x ∈ mergeBundles B batch := by
    rw [mem_merge_iff_core hN]
    unfold mergeCoreD
    exact List.mem_append_left _ (List.mem_flatMap.mpr ⟨n, hn, hx⟩)
  have hisSome : (dGet (buildLookup (mergeBundles B batch)) (keyOf n)).isSome = true := by
    rw [dGet_buildLookup_isSome]
    exact List.any_eq_true.mpr ⟨x, hxB, by simp [hxk]⟩
  cases hg : dGet (buildLookup (mergeBundles B batch)) (keyOf n) with
  | none => rw [hg] at hisSome; cases hisSome
  | some w =>
    have := dGet_buildLookup_some hg
    exact ⟨w, rfl, this.1, this.2⟩

/-- C3 counterexample: when the stored entry under the submitted key is a
stale record with byte-identical text, the no-op refresh copies its
`stale = true` onto the incoming entry, so re-running synchronization
leaves *no* non-stale entry for the submitted key — the claimed "single
non-stale entry per submitted identity key" does not exist. -/
theorem merge_rerun_counterexample :
    mergeBundles
        (mergeBundles
          [⟨"Morocco", "NDC Tracking Module", "BUR5", "u10", "txt",
              "2021-01-01T00:00:00Z", true⟩]
          [⟨"Morocco", "NDC Tracking Module", "BUR5", "u10", "txt",
              "2022-01-01T00:00:00Z", false⟩])
        [⟨"Morocco", "NDC Tracking Module", "BUR5", "u10", "txt",
            "2022-01-01T00:00:00Z", false⟩] =
      [⟨"Morocco", "NDC Tracking Module", "BUR5", "u10", "txt",
          "2021-01-01T00:00:00Z", true⟩] ∧
    countKeyNonstale
        (mergeBundles
          (mergeBundles
            [⟨"Morocco", "NDC Tracking Module", "BUR5", "u10", "txt",
                "2021-01-01T00:00:00Z", true⟩]
            [⟨"Morocco", "NDC Tracking Module", "BUR5", "u10", "txt",
                "2022-01-01T00:00:00Z", false⟩])
          [⟨"Morocco", "NDC Tracking Module", "BUR5", "u10", "txt",
              "2022-01-01T00:00:00Z", false⟩])
        ("Morocco", "NDC Tracking Module", "BUR5", "u10") = 0 := by
  decide

/-- C3 (amended): for a batch with pairwise distinct identity keys and any
starting bundle, a second run of `merge_bundles` over the byte-identical
batch introduces nothing new — every entry of the second result already
occurs in the first result (in particular no new stale duplicates and no
changed `created_utc`), and every non-stale entry of the first result
survives into the second. -/
theorem merge_rerun_stable {B0 batch : List Entry} (hN : KeysDistinct batch) :
    (∀ e ∈ mergeBundles (mergeBundles B0 batch) batch,
      e ∈ mergeBundles B0 batch) ∧
    (∀ e ∈ mergeBundles B0 batch, e.stale = false →
      e ∈ mergeBundles (mergeBundles B0 batch) batch) := by
  constructor
  · intro e he
    rcases mem_core_cases ((mem_merge_iff_core hN).mp he) with
      ⟨n, hn, hen⟩ | ⟨p, hp, hpk, hep⟩
    · rcases @dGet_lookup_merge B0 _ _ hN hn with ⟨w, hgw, hwB1, hwk⟩
      unfold mergeStepD at hen
      simp only [hgw] at hen
      by_cases ht : w.extracted_text = n.extracted_text
      · rw [if_pos ht] at hen
        simp only [List.mem_singleton] at hen
        rw [hen, refresh_eq hwk.symm ht]
        exact hwB1
      · rw [if_neg ht] at hen
        have hw0 : w ∈ mergeStepD (buildLookup B0) n :=
          mem_merge_key_step hN hn hwB1 hwk
        unfold mergeStepD at hw0
        cases hg0 : dGet (buildLookup B0) (keyOf n) with
        | none =>
          simp only [hg0, List.mem_singleton] at hw0
          exact absurd (hw0 ▸ rfl) ht
        | some e0 =>
          simp only [hg0] at hw0
          by_cases ht0 : e0.extracted_text = n.extracted_text
          · rw [if_pos ht0] at hw0
            simp only [List.mem_singleton] at hw0
            exact absurd (show w.extracted_text = n.extracted_text by rw [hw0]) ht
          · rw [if_neg ht0] at hw0
            have hnB1 : n ∈ mergeBundles B0 batch := by
              rw [mem_merge_iff_core hN]
              refine List.mem_append_left _ (List.mem_flatMap.mpr ⟨n, hn, ?_⟩)
              unfold mergeStepD
              simp [hg0, if_neg ht0]
            rcases List.mem_cons.mp hw0 with hw0 | hw0
            · rcases List.mem_cons.mp hen with hen | hen
              · rw [hen, hw0, setStale_setStale, ← hw0]
                exact hwB1
              · simp only [List.mem_singleton] at hen
                rw [hen]
                exact hnB1
            · simp only [List.mem_singleton] at hw0
              exact absurd (hw0 ▸ rfl) ht
    · have hpp := buildLookup_pairs hp
      have hstale : p.2.stale = true := by
        apply mem_merge_nonbatch_stale hN hpp.2
        intro m hm hkm
        exact List.any_eq_false.mp hpk m hm
          (decide_eq_true_eq.mpr (hkm.trans hpp.1))
      rw [hep, setStale_of_stale hstale]
      exact hpp.2
  · intro e he hns
    rcases mem_core_cases ((mem_merge_iff_core hN).mp he) with
      ⟨n, hn, hen⟩ | ⟨p, hp, hpk, hep⟩
    · rcases @dGet_lookup_merge B0 _ _ hN hn with ⟨w, hgw, hwB1, hwk⟩
      have hw0 : w ∈ mergeStepD (buildLookup B0) n :=
        mem_merge_key_step hN hn hwB1 hwk
      have hgoal : e ∈ mergeStepD (buildLookup (mergeBundles B0 batch)) n →
          e ∈ mergeBundles (mergeBundles B0 batch) batch := by
        intro hx
        rw [mem_merge_iff_core hN]
        exact List.mem_append_left _ (List.mem_flatMap.mpr ⟨n, hn, hx⟩)
      apply hgoal
      unfold mergeStepD at hen hw0 ⊢
      simp only [hgw]
      cases hg0 : dGet (buildLookup B0) (keyOf n) with
      | none =>
        simp only [hg0, List.mem_singleton] at hen hw0
        rw [if_pos (hw0 ▸ rfl)]
        rw [hen, ← hw0]
        have : ({ n with created_utc := w.created_utc, stale := w.stale } : Entry) = w :=
          refresh_eq hwk.symm (hw0 ▸ rfl)
        simp [this, hw0]
      | some e0 =>
        simp only [hg0] at hen hw0
        by_cases ht0 : e0.extracted_text = n.extracted_text
        · rw [if_pos ht0] at hen hw0
          simp only [List.mem_singleton] at hen hw0
          have htw : w.extracted_text = n.extracted_text := by
            rw [hw0]
          rw [if_pos htw]
          rw [hen, ← hw0]
          simp [refresh_eq hwk.symm htw]
        · rw [if_neg ht0] at hen hw0
          have hne : e = n := by
            rcases List.mem_cons.mp hen with hen | hen
            · exfalso
              rw [hen] at hns
              cases hns
            · simpa using hen
          rcases List.mem_cons.mp hw0 with hw0 | hw0
          · have htw : ¬ w.extracted_text = n.extracted_text := by
              rw [hw0]
              exact ht0
            rw [if_neg htw]
            rw [hne]
            simp
          · simp only [List.mem_singleton] at hw0
            have htw : w.extracted_text = n.extracted_text := by rw [hw0]
            rw [if_pos htw]
            rw [hne, ← hw0]
            simp [refresh_eq hwk.symm htw]
    · exfalso
      rw [hep] at hns
      cases hns

/-- C3 witness: a concrete instance of the amended re-run theorem. -/
theorem merge_rerun_stable_witness :
    (∀ e ∈ mergeBundles
        (mergeBundles
          [⟨"Togo", "GHG Inventory Module", "BUR1", "u11", "t1",
              "2020-01-01T00:00:00Z", false⟩]
          [⟨"Togo", "GHG Inventory Module", "BUR1", "u11", "t2",
              "2021-01-01T00:00:00Z", false⟩])
        [⟨"Togo", "GHG Inventory Module", "BUR1", "u11", "t2",
            "2021-01-01T00:00:00Z", false⟩],
      e ∈ mergeBundles
        [⟨"Togo", "GHG Inventory Module", "BUR1", "u11", "t1",
            "2020-01-01T00:00:00Z", false⟩]
        [⟨"Togo", "GHG Inventory Module", "BUR1", "u11", "t2",
            "2021-01-01T00:00:00Z", false⟩]) ∧
    (∀ e ∈ mergeBundles
        [⟨"Togo", "GHG Inventory Module", "BUR1", "u11", "t1",
            "2020-01-01T00:00:00Z", false⟩]
        [⟨"Togo", "GHG Inventory Module", "BUR1", "u11", "t2",
            "2021-01-01T00:00:00Z", false⟩], e.stale = false →
      e ∈ mergeBundles
        (mergeBundles
          [⟨"Togo", "GHG Inventory Module", "BUR1", "u11", "t1",
              "2020-01-01T00:00:00Z", false⟩]
          [⟨"Togo", "GHG Inventory Module", "BUR1", "u11", "t2",
              "2021-01-01T00:00:00Z", false⟩])
        [⟨"Togo", "GHG Inventory Module", "BUR1", "u11", "t2",
            "2021-01-01T00:00:00Z", false⟩]) :=
  merge_rerun_stable (by unfold KeysDistinct; decide)

theorem horiz_ne_nl {c : Char} (h : isHoriz c = true) :
    decide (c = '\n') = false := by
  unfold isHoriz at h
  rcases Bool.or_eq_true_iff.mp h with h | h <;>
    simp only [decide_eq_true_eq] at h <;> subst h <;> rfl

theorem horiz_of_headIs {l : List Char} (h : headIs isHoriz l = true) :
    ∃ x t, l = x :: t ∧ isHoriz x = true := by
  cases l with
  | nil => cases h
  | cons x t => exact ⟨x, t, rfl, h⟩

theorem noAdj_tail {p q : Char → Bool} {c : Char} {l : List Char}
    (h : noAdj p q (c :: l) = true) : noAdj p q l = true := by
  cases l with
  | nil => rfl
  | cons b t => exact (Bool.and_eq_true_iff.mp h).2

theorem noAdj_cons {p q : Char → Bool} {c : Char} {l : List Char}
    (hl : noAdj p q l = true)
    (hc : ∀ x t, l = x :: t → (p c && q x) = false) :
    noAdj p q (c :: l) = true := by
  cases l with
  | nil => rfl
  | cons b t =>
    refine Bool.and_eq_true_iff.mpr ⟨?_, hl⟩
    rw [hc b t rfl]
    rfl

theorem noAdj_pair {p q : Char → Bool} {c x : Char} {t : List Char}
    (h : noAdj p q (c :: x :: t) = true) : (p c && q x) = false := by
  have h1 := (Bool.and_eq_true_iff.mp h).1
  revert h1
  cases p c && q x <;> simp

theorem noAdj_suffix {p q : Char → Bool} :
    ∀ {l2 l1 : List Char}, l2 <:+ l1 → noAdj p q l1 = true →
      noAdj p q l2 = true := by
  intro l2 l1 hs h
  obtain ⟨t, rfl⟩ := hs
  induction t with
  | nil => exact h
  | cons a r ih => exact ih (noAdj_tail h)

theorem noAdj_append_left {p q : Char → Bool} :
    ∀ (l1 t : List Char), noAdj p q (l1 ++ t) = true → noAdj p q l1 = true
  | [], _, _ => rfl
  | [_], _, _ => rfl
  | a :: b :: r, t, h => by
    simp only [List.cons_append] at h
    exact Bool.and_eq_true_iff.mpr
      ⟨(Bool.and_eq_true_iff.mp h).1,
        noAdj_append_left (b :: r) t (Bool.and_eq_true_iff.mp h).2⟩

theorem noAdj_prefix {p q : Char → Bool} {l1 l2 : List Char}
    (hs : l1 <+: l2) (h : noAdj p q l2 = true) : noAdj p q l1 = true := by
  obtain ⟨t, rfl⟩ := hs
  exact noAdj_append_left l1 t h

theorem noTriple_tail {c : Char} {l : List Char}
    (h : noTripleNl (c :: l) = true) : noTripleNl l = true := by
  cases l with
  | nil => rfl
  | cons b t =>
    cases t with
    | nil => rfl
    | cons d r => exact (Bool.and_eq_true_iff.mp h).2

theorem noTriple_cons {c : Char} {l : List Char}
    (hl : noTripleNl l = true)
    (hc : (decide (c = '\n') && headIs (fun x => x = '\n') l &&
      headIs (fun x => x = '\n') l.tail) = false) :
    noTripleNl (c :: l) = true := by
  cases l with
  | nil => rfl
  | cons b t =>
    cases t with
    | nil => rfl
    | cons d r =>
      refine Bool.and_eq_true_iff.mpr ⟨?_, hl⟩
      simp only [headIs, List.tail_cons] at hc
      rw [show (decide (c = '\n') && decide (b = '\n') && decide (d = '\n'))
        = false from hc]
      rfl

theorem noTriple_pair {c b d : Char} {t : List Char}
    (h : noTripleNl (c :: b :: d :: t) = true) :
    (decide (c = '\n') && decide (b = '\n') && decide (d = '\n')) = false := by
  have h1 := (Bool.and_eq_true_iff.mp h).1
  revert h1
  cases (decide (c = '\n') && decide (b = '\n') && decide (d = '\n')) <;> simp

theorem noTriple_suffix :
    ∀ {l2 l1 : List Char}, l2 <:+ l1 → noTripleNl l1 = true →
      noTripleNl l2 = true := by
  intro l2 l1 hs h
  obtain ⟨t, rfl⟩ := hs
  induction t with
  | nil => exact h
  | cons a r ih => exact ih (noTriple_tail h)

theorem noTriple_append_left :
    ∀ (l1 t : List Char), noTripleNl (l1 ++ t) = true → noTripleNl l1 = true
  | [], _, _ => rfl
  | [_], _, _ => rfl
  | [_, _], _, _ => rfl
  | a :: b :: d :: r, t, h => by
    simp only [List.cons_append] at h
    exact Bool.and_eq_true_iff.mpr
      ⟨(Bool.and_eq_true_iff.mp h).1,
        noTriple_append_left (b :: d :: r) t (Bool.and_eq_true_iff.mp h).2⟩

theorem noTriple_prefix {l1 l2 : List Char}
    (hs : l1 <+: l2) (h : noTripleNl l2 = true) : noTripleNl l1 = true := by
  obtain ⟨t, rfl⟩ := hs
  exact noTriple_append_left l1 t h

theorem rstripNl_cons (c : Char) (rest : List Char) :
    rstripNl (c :: rest) =
      if isHoriz c && headIs (fun x => x = '\n') (rstripNl rest) then
        rstripNl rest
      else c :: rstripNl rest := rfl

theorem squeezeNl_cons (c : Char) (rest : List Char) :
    squeezeNl (c :: rest) =
      if c = '\n' && headIs (fun x => x = '\n') (squeezeNl rest) &&
          headIs (fun x => x = '\n') (squeezeNl rest).tail then
        squeezeNl rest
      else c :: squeezeNl rest := rfl

theorem squeezeSp_cons (c : Char) (rest : List Char) :
    squeezeSp (c :: rest) =
      if isHoriz c && headIs isHoriz (squeezeSp rest) then
        ' ' :: (squeezeSp rest).tail
      else c :: squeezeSp rest := rfl

theorem headIs_nl_head {l : List Char}
    (h : headIs (fun x => x = '\n') l = true) : l.head? = some '\n' := by
  cases l with
  | nil => cases h
  | cons x t =>
    simp only [headIs, decide_eq_true_eq] at h
    rw [h]
    rfl

theorem squeezeNl_head : ∀ (l : List Char), (squeezeNl l).head? = l.head?
  | [] => rfl
  | c :: rest => by
    rw [squeezeNl_cons]
    cases h : (c = '\n' && headIs (fun x => x = '\n') (squeezeNl rest) &&
        headIs (fun x => x = '\n') (squeezeNl rest).tail) with
    | false => simp [h]
    | true =>
      simp only [h, if_true]
      rcases Bool.and_eq_true_iff.mp h with ⟨h1, _⟩
      rcases Bool.and_eq_true_iff.mp h1 with ⟨hc, hh⟩
      simp only [decide_eq_true_eq] at hc
      rw [headIs_nl_head hh, hc]
      rfl

theorem squeezeSp_head_nl : ∀ (l : List Char),
    headIs (fun x => x = '\n') (squeezeSp l) =
      headIs (fun x => x = '\n') l
  | [] => rfl
  | c :: rest => by
    rw [squeezeSp_cons]
    cases h : (isHoriz c && headIs isHoriz (squeezeSp rest)) with
    | false => simp [h, headIs]
    | true =>
      simp only [h, if_true, headIs]
      rcases Bool.and_eq_true_iff.mp h with ⟨hc, _⟩
      rw [horiz_ne_nl hc]
      rfl

theorem squeezeSp_cons_nh {c : Char} {rest : List Char}
    (h : isHoriz c = false) :
    squeezeSp (c :: rest) = c :: squeezeSp rest := by
  rw [squeezeSp_cons, h]
  rfl

/-- The `[ \t]+\n` pass leaves no horizontal whitespace in front of a
newline. -/
theorem rstripNl_noAdj : ∀ (l : List Char),
    noAdj isHoriz (fun x => x = '\n') (rstripNl l) = true
  | [] => rfl
  | c :: rest => by
    rw [rstripNl_cons]
    cases h : (isHoriz c && headIs (fun x => x = '\n') (rstripNl rest)) with
    | true =>
      simp only [h, if_true]
      exact rstripNl_noAdj rest
    | false =>
      simp only [h, Bool.false_eq_true, if_false]
      refine noAdj_cons (rstripNl_noAdj rest) ?_
      intro x t hxt
      cases hic : isHoriz c with
      | false => simp [hic]
      | true =>
        rw [hic, Bool.true_and] at h
        rw [hxt] at h
        simp only [headIs] at h
        simp [h]

/-- The `\n{3,}` pass leaves no triple newline. -/
theorem squeezeNl_noTriple : ∀ (l : List Char),
    noTripleNl (squeezeNl l) = true
  | [] => rfl
  | c :: rest => by
    rw [squeezeNl_cons]
    cases h : (c = '\n' && headIs (fun x => x = '\n') (squeezeNl rest) &&
        headIs (fun x => x = '\n') (squeezeNl rest).tail) with
    | true =>
      simp only [h, if_true]
      exact squeezeNl_noTriple rest
    | false =>
      simp only [h, Bool.false_eq_true, if_false]
      exact noTriple_cons (squeezeNl_noTriple rest) h

/-- The `[ \t]{2,}` pass leaves no two adjacent horizontal whitespace
characters. -/
theorem squeezeSp_noAdj : ∀ (l : List Char),
    noAdj isHoriz isHoriz (squeezeSp l) = true
  | [] => rfl
  | c :: rest => by
    rw [squeezeSp_cons]
    cases h : (isHoriz c && headIs isHoriz (squeezeSp rest)) with
    | false =>
      simp only [h, Bool.false_eq_true, if_false]
      refine noAdj_cons (squeezeSp_noAdj rest) ?_
      intro x t hxt
      cases hic : isHoriz c with
      | false => simp [hic]
      | true =>
        rw [hic, Bool.true_and] at h
        rw [hxt] at h
        simp only [headIs] at h
        simp [h]
    | true =>
      simp only [h, if_true]
      rcases Bool.and_eq_true_iff.mp h with ⟨_, hh⟩
      rcases horiz_of_headIs hh with ⟨x, o, hout, hx⟩
      have hprev := squeezeSp_noAdj rest
      rw [hout] at hprev ⊢
      simp only [List.tail_cons]
      refine noAdj_cons (noAdj_tail hprev) ?_
      intro y t hyt
      rw [hyt] at hprev
      have hpair := noAdj_pair hprev
      rw [hx, Bool.true_and] at hpair
      simp [hpair]

/-- The newline squeeze does not create a horizontal-whitespace-newline
adjacency. -/
theorem squeezeNl_pres_noAdjHN : ∀ (l : List Char),
    noAdj isHoriz (fun x => x = '\n') l = true →
    noAdj isHoriz (fun x => x = '\n') (squeezeNl l) = true
  | [], _ => rfl
  | c :: rest, hA => by
    have ih := squeezeNl_pres_noAdjHN rest (noAdj_tail hA)
    rw [squeezeNl_cons]
    cases h : (c = '\n' && headIs (fun x => x = '\n') (squeezeNl rest) &&
        headIs (fun x => x = '\n') (squeezeNl rest).tail) with
    | true =>
      simp only [h, if_true]
      exact ih
    | false =>
      simp only [h, Bool.false_eq_true, if_false]
      refine noAdj_cons ih ?_
      intro x t hxt
      cases hic : isHoriz c with
      | false => simp [hic]
      | true =>
        cases rest with
        | nil => rw [show squeezeNl [] = [] from rfl] at hxt; cases hxt
        | cons y r =>
          have hhead := squeezeNl_head (y :: r)
          rw [hxt] at hhead
          have hxy : x = y := by
            simp only [List.head?_cons, Option.some.injEq] at hhead
            exact hhead
          have hpair := noAdj_pair hA
          rw [hic, Bool.true_and] at hpair
          rw [hxy]
          simp [hpair]

/-- The space squeeze does not create a horizontal-whitespace-newline
adjacency, provided the input has none. -/
theorem squeezeSp_pres_noAdjHN : ∀ (l : List Char),
    noAdj isHoriz (fun x => x = '\n') l = true →
    noAdj isHoriz (fun x => x = '\n') (squeezeSp l) = true
  | [], _ => rfl
  | c :: rest, hA => by
    have ih := squeezeSp_pres_noAdjHN rest (noAdj_tail hA)
    rw [squeezeSp_cons]
    cases h : (isHoriz c && headIs isHoriz (squeezeSp rest)) with
    | false =>
      simp only [h, Bool.false_eq_true, if_false]
      refine noAdj_cons ih ?_
      intro x t hxt
      cases hic : isHoriz c with
      | false => simp [hic]
      | true =>
        cases rest with
        | nil => rw [show squeezeSp [] = [] from rfl] at hxt; cases hxt
        | cons y r =>
          have hpair := noAdj_pair hA
          rw [hic, Bool.true_and] at hpair
          have hh := squeezeSp_head_nl (y :: r)
          rw [hxt] at hh
          simp only [headIs] at hh
          rw [hpair] at hh
          simp [hh]
    | true =>
      simp only [h, if_true]
      rcases Bool.and_eq_true_iff.mp h with ⟨_, hh⟩
      rcases horiz_of_headIs hh with ⟨x, o, hout, hx⟩
      rw [hout]
      simp only [List.tail_cons]
      have ih2 := ih
      rw [hout] at ih2
      refine noAdj_cons (noAdj_tail ih2) ?_
      intro y t hyt
      rw [hyt] at ih2
      have hpair := noAdj_pair ih2
      rw [hx, Bool.true_and] at hpair
      simp [hpair]

/-- The space squeeze does not create a triple newline, provided the input
has no horizontal whitespace in front of a newline and no triple. -/
theorem squeezeSp_pres_noTriple : ∀ (l : List Char),
    noAdj isHoriz (fun x => x = '\n') l = true → noTripleNl l = true →
    noTripleNl (squeezeSp l) = true
  | [], _, _ => rfl
  | c :: rest, hA, hT => by
    have ih := squeezeSp_pres_noTriple rest (noAdj_tail hA) (noTriple_tail hT)
    rw [squeezeSp_cons]
    cases h : (isHoriz c && headIs isHoriz (squeezeSp rest)) with
    | true =>
      simp only [h, if_true]
      rcases Bool.and_eq_true_iff.mp h with ⟨_, hh⟩
      rcases horiz_of_headIs hh with ⟨x, o, hout, _⟩
      rw [hout]
      simp only [List.tail_cons]
      have ih2 := ih
      rw [hout] at ih2
      refine noTriple_cons (noTriple_tail ih2) ?_
      simp
    | false =>
      simp only [h, Bool.false_eq_true, if_false]
      refine noTriple_cons ih ?_
      by_cases hc : c = '\n'
      · subst hc
        cases hrn : headIs (fun x => x = '\n') (squeezeSp rest) with
        | false => simp [hrn]
        | true =>
          have heq := squeezeSp_head_nl rest
          rw [hrn] at heq
          cases rest with
          | nil => simp [headIs] at heq
          | cons y r =>
            have hy : y = '\n' := by
              have h2 := heq.symm
              simp only [headIs, decide_eq_true_eq] at h2
              exact h2
            subst hy
            have hcons := @squeezeSp_cons_nh '\n' r rfl
            rw [hcons]
            simp only [List.tail_cons]
            have hC : headIs (fun x => decide (x = '\n')) (squeezeSp r) = false := by
              rw [squeezeSp_head_nl r]
              cases r with
              | nil => rfl
              | cons z r2 =>
                simp only [headIs]
                cases hz : decide (z = '\n') with
                | false => rfl
                | true =>
                  have hz' : z = '\n' := by simpa using hz
                  subst hz'
                  have := noTriple_pair hT
                  simp at this
            simp [hC]
      · simp [hc]

theorem noCR_tail {c : Char} {l : List Char} (h : noCR (c :: l) = true) :
    noCR l = true := by
  simp only [noCR, List.all_cons, Bool.and_eq_true] at h
  exact h.2

theorem noCR_head {c : Char} {l : List Char} (h : noCR (c :: l) = true) :
    (c = '\r') = False := by
  simp only [noCR, List.all_cons, Bool.and_eq_true] at h
  have := h.1
  simp only [Bool.not_eq_true', decide_eq_false_iff_not] at this
  simp [this]

theorem noCR_cons {c : Char} {l : List Char} (hc : ¬ c = '\r')
    (h : noCR l = true) : noCR (c :: l) = true := by
  simp only [noCR, List.all_cons, Bool.and_eq_true]
  exact ⟨by simp [hc], h⟩

theorem replCR_noCR : ∀ (l : List Char), noCR (replCR l) = true
  | [] => rfl
  | c :: t => by
    simp only [replCR]
    by_cases hc : c = '\r'
    · simp only [if_pos hc]
      exact noCR_cons (by decide) (replCR_noCR t)
    · simp only [if_neg hc]
      exact noCR_cons hc (replCR_noCR t)

theorem dehyph_noCR : ∀ (l : List Char), noCR l = true → noCR (dehyph l) = true
  | [], _ => rfl
  | [a], h => h
  | [a, b], h => h
  | a :: b :: c :: t, h => by
    simp only [dehyph]
    by_cases hcond : (a = '-' && b = '\n' && isWordChar c) = true
    · simp only [if_pos hcond]
      exact dehyph_noCR (c :: t) (noCR_tail (noCR_tail h))
    · simp only [if_neg hcond]
      exact noCR_cons (fun hx => (noCR_head h).mp hx)
        (dehyph_noCR (b :: c :: t) (noCR_tail h))


theorem rstripNl_noCR : ∀ (l : List Char), noCR l = true →
    noCR (rstripNl l) = true
  | [], _ => rfl
  | c :: rest, h => by
    rw [rstripNl_cons]
    have ih := rstripNl_noCR rest (noCR_tail h)
    cases hcond : (isHoriz c && headIs (fun x => x = '\n') (rstripNl rest)) with
    | true => simp only [hcond, if_true]; exact ih
    | false =>
      simp only [hcond, Bool.false_eq_true, if_false]
      exact noCR_cons (fun hx => (noCR_head h).mp hx) ih

theorem squeezeNl_noCR : ∀ (l : List Char), noCR l = true →
    noCR (squeezeNl l) = true
  | [], _ => rfl
  | c :: rest, h => by
    rw [squeezeNl_cons]
    have ih := squeezeNl_noCR rest (noCR_tail h)
    cases hcond : (c = '\n' && headIs (fun x => x = '\n') (squeezeNl rest) &&
        headIs (fun x => x = '\n') (squeezeNl rest).tail) with
    | true => simp only [hcond, if_true]; exact ih
    | false =>
      simp only [hcond, Bool.false_eq_true, if_false]
      exact noCR_cons (fun hx => (noCR_head h).mp hx) ih

theorem squeezeSp_noCR : ∀ (l : List Char), noCR l = true →
    noCR (squeezeSp l) = true
  | [], _ => rfl
  | c :: rest, h => by
    rw [squeezeSp_cons]
    have ih := squeezeSp_noCR rest (noCR_tail h)
    cases hcond : (isHoriz c && headIs isHoriz (squeezeSp rest)) with
    | false =>
      simp only [hcond, Bool.false_eq_true, if_false]
      exact noCR_cons (fun hx => (noCR_head h).mp hx) ih
    | true =>
      simp only [hcond, if_true]
      rcases Bool.and_eq_true_iff.mp hcond with ⟨_, hh⟩
      rcases horiz_of_headIs hh with ⟨x, o, hout, _⟩
      rw [hout]
      simp only [List.tail_cons]
      rw [hout] at ih
      exact noCR_cons (by decide) (noCR_tail ih)

theorem pyRstrip_front : ∀ (l : List Char), pyRstrip l <+: l
  | [] => List.prefix_refl []
  | c :: t => by
    simp only [pyRstrip]
    cases hr : pyRstrip t with
    | nil =>
      by_cases hc : isPyWS c = true
      · simp only [if_pos hc]
        exact List.nil_prefix
      · simp only [if_neg hc]
        exact List.cons_prefix_cons.mpr ⟨rfl, List.nil_prefix⟩
    | cons x o =>
      refine List.cons_prefix_cons.mpr ⟨rfl, ?_⟩
      rw [← hr]
      exact pyRstrip_front t

theorem noCR_append_left {l t : List Char} (h : noCR (l ++ t) = true) :
    noCR l = true := by
  simp only [noCR, List.all_append, Bool.and_eq_true] at h ⊢
  exact h.1

theorem noCR_suffix {l2 l1 : List Char} (hs : l2 <:+ l1)
    (h : noCR l1 = true) : noCR l2 = true := by
  obtain ⟨t, rfl⟩ := hs
  induction t with
  | nil => exact h
  | cons a r ih => exact ih (noCR_tail h)

theorem noCR_prefix {l1 l2 : List Char} (hs : l1 <+: l2)
    (h : noCR l2 = true) : noCR l1 = true := by
  obtain ⟨t, rfl⟩ := hs
  exact noCR_append_left h

theorem pyStrip_noCR {l : List Char} (h : noCR l = true) :
    noCR (pyStrip l) = true :=
  noCR_prefix (pyRstrip_front _)
    (noCR_suffix (List.dropWhile_suffix isPyWS) h)

theorem pyStrip_pres_noAdj {p q : Char → Bool} {l : List Char}
    (h : noAdj p q l = true) : noAdj p q (pyStrip l) = true :=
  noAdj_prefix (pyRstrip_front _)
    (noAdj_suffix (List.dropWhile_suffix isPyWS) h)

theorem pyStrip_pres_noTriple {l : List Char} (h : noTripleNl l = true) :
    noTripleNl (pyStrip l) = true :=
  noTriple_prefix (pyRstrip_front _)
    (noTriple_suffix (List.dropWhile_suffix isPyWS) h)

theorem pyRstrip_cons (c : Char) (t : List Char) :
    pyRstrip (c :: t) =
      match pyRstrip t with
      | [] => if isPyWS c then [] else [c]
      | r => c :: r := rfl

theorem pyRstrip_head : ∀ (l : List Char),
    pyRstrip l = [] ∨ (pyRstrip l).head? = l.head?
  | [] => Or.inl rfl
  | c :: t => by
    rw [pyRstrip_cons]
    cases hr : pyRstrip t with
    | nil =>
      by_cases hc : isPyWS c = true
      · exact Or.inl (by simp [hc])
      · refine Or.inr ?_
        simp [hc]
    | cons x o => exact Or.inr rfl

theorem pyRstrip_idem : ∀ (l : List Char), pyRstrip (pyRstrip l) = pyRstrip l
  | [] => rfl
  | c :: t => by
    rw [pyRstrip_cons c t]
    cases hr : pyRstrip t with
    | nil =>
      by_cases hc : isPyWS c = true
      · simp only [if_pos hc]
        rfl
      · simp only [if_neg hc]
        rw [pyRstrip_cons c [], show pyRstrip ([] : List Char) = [] from rfl]
        simp [hc]
    | cons x o =>
      have ih := pyRstrip_idem t
      rw [hr] at ih
      show pyRstrip (c :: x :: o) = c :: x :: o
      rw [pyRstrip_cons c (x :: o), ih]

theorem dropWhile_head_false :
    ∀ (p : Char → Bool) (l : List Char) {x : Char} {t : List Char},
      l.dropWhile p = x :: t → p x = false
  | p, [], x, t, h => by cases h
  | p, c :: r, x, t, h => by
    rw [List.dropWhile_cons] at h
    by_cases hc : p c = true
    · rw [if_pos hc] at h
      exact dropWhile_head_false p r h
    · rw [if_neg hc] at h
      injection h with h1 h2
      subst h1
      revert hc
      cases p c <;> simp

theorem pyStrip_idem (l : List Char) : pyStrip (pyStrip l) = pyStrip l := by
  unfold pyStrip
  have hinner : (pyRstrip (l.dropWhile isPyWS)).dropWhile isPyWS =
      pyRstrip (l.dropWhile isPyWS) := by
    cases hr : pyRstrip (l.dropWhile isPyWS) with
    | nil => rfl
    | cons x o =>
      rcases pyRstrip_head (l.dropWhile isPyWS) with h | h
      · rw [hr] at h
        cases h
      · rw [hr] at h
        cases hd : l.dropWhile isPyWS with
        | nil =>
          rw [hd] at h
          simp at h
        | cons y t =>
          have hy : isPyWS y = false := dropWhile_head_false _ l hd
          rw [hd] at h
          simp only [List.head?_cons, Option.some.injEq] at h
          refine List.dropWhile_cons_of_neg ?_
          rw [h]
          simp [hy]
  rw [hinner, pyRstrip_idem]

theorem replCR_eq_self : ∀ {l : List Char}, noCR l = true → replCR l = l
  | [], _ => rfl
  | c :: t, h => by
    simp only [replCR]
    rw [if_neg (fun hx => (noCR_head h).mp hx)]
    rw [replCR_eq_self (noCR_tail h)]

theorem dehyph_eq_self : ∀ {l : List Char}, hasHyphNlWord l = false →
    dehyph l = l
  | [], _ => rfl
  | [_], _ => rfl
  | [_, _], _ => rfl
  | a :: b :: c :: t, h => by
    simp only [hasHyphNlWord, Bool.or_eq_false_iff] at h
    simp only [dehyph, h.1, Bool.false_eq_true, if_false]
    rw [dehyph_eq_self h.2]

theorem rstripNl_eq_self : ∀ {l : List Char},
    noAdj isHoriz (fun x => x = '\n') l = true → rstripNl l = l
  | [], _ => rfl
  | c :: rest, hA => by
    have ih := rstripNl_eq_self (noAdj_tail hA)
    rw [rstripNl_cons, ih]
    cases hic : isHoriz c with
    | false => simp [hic]
    | true =>
      have hcond : headIs (fun x => x = '\n') rest = false := by
        cases rest with
        | nil => rfl
        | cons y r =>
          have hpair := noAdj_pair hA
          rw [hic, Bool.true_and] at hpair
          simpa [headIs] using hpair
      simp [hic, hcond]

theorem squeezeNl_eq_self : ∀ {l : List Char}, noTripleNl l = true →
    squeezeNl l = l
  | [], _ => rfl
  | c :: rest, hT => by
    have ih := squeezeNl_eq_self (noTriple_tail hT)
    rw [squeezeNl_cons, ih]
    have hcond : (decide (c = '\n') && headIs (fun x => x = '\n') rest &&
        headIs (fun x => x = '\n') rest.tail) = false := by
      by_cases hc : c = '\n'
      · subst hc
        cases rest with
        | nil => rfl
        | cons y r =>
          simp only [headIs, List.tail_cons]
          by_cases hy : y = '\n'
          · subst hy
            cases r with
            | nil => rfl
            | cons z r2 =>
              simp only [headIs]
              cases hz : decide (z = '\n') with
              | false => simp
              | true =>
                have hz' : z = '\n' := by simpa using hz
                subst hz'
                have := noTriple_pair hT
                simp at this
          · simp [hy]
      · simp [hc]
    simp [hcond]

theorem squeezeSp_eq_self : ∀ {l : List Char},
    noAdj isHoriz isHoriz l = true → squeezeSp l = l
  | [], _ => rfl
  | c :: rest, hE => by
    have ih := squeezeSp_eq_self (noAdj_tail hE)
    rw [squeezeSp_cons, ih]
    cases hic : isHoriz c with
    | false => simp [hic]
    | true =>
      have hcond : headIs isHoriz rest = false := by
        cases rest with
        | nil => rfl
        | cons y r =>
          have hpair := noAdj_pair hE
          rw [hic, Bool.true_and] at hpair
          simpa [headIs] using hpair
      simp [hic, hcond]

/-- C4 counterexample: `clean_extracted_text` is not idempotent.  On
`"a- \nb"` the first pass leaves the hyphen (the newline is separated from
it by a space), then the `[ \t]+\n` pass deletes that space and exposes a
fresh hyphen-newline-word junction, which only a second run rewrites to
`"ab"`. -/
theorem clean_not_idempotent :
    cleanExtractedText ['a', '-', ' ', '\n', 'b'] = ['a', '-', '\n', 'b'] ∧
    cleanExtractedText (cleanExtractedText ['a', '-', ' ', '\n', 'b']) =
      ['a', 'b'] ∧
    cleanExtractedText (cleanExtractedText ['a', '-', ' ', '\n', 'b']) ≠
      cleanExtractedText ['a', '-', ' ', '\n', 'b'] := by
  decide

/-- C4 (amended): `clean_extracted_text` is idempotent on every input
whose cleaned form contains no hyphen directly followed by a newline and a
word character; in general a second pass can additionally join a
hyphenation split that the trailing-whitespace pass of the first run
exposed. -/
theorem clean_idempotent_of_no_exposed_hyphen {t : List Char}
    (h : hasHyphNlWord (cleanExtractedText t) = false) :
    cleanExtractedText (cleanExtractedText t) = cleanExtractedText t := by
  have hout : cleanExtractedText t =
      pyStrip (squeezeSp (squeezeNl (rstripNl (dehyph (replCR t))))) := rfl
  have f1 : noCR (cleanExtractedText t) = true := by
    rw [hout]
    exact pyStrip_noCR (squeezeSp_noCR _ (squeezeNl_noCR _
      (rstripNl_noCR _ (dehyph_noCR _ (replCR_noCR t)))))
  have f2 : noAdj isHoriz (fun x => x = '\n') (cleanExtractedText t) = true := by
    rw [hout]
    exact pyStrip_pres_noAdj (squeezeSp_pres_noAdjHN _
      (squeezeNl_pres_noAdjHN _ (rstripNl_noAdj _)))
  have f3 : noTripleNl (cleanExtractedText t) = true := by
    rw [hout]
    exact pyStrip_pres_noTriple (squeezeSp_pres_noTriple _
      (squeezeNl_pres_noAdjHN _ (rstripNl_noAdj _)) (squeezeNl_noTriple _))
  have f4 : noAdj isHoriz isHoriz (cleanExtractedText t) = true := by
    rw [hout]
    exact pyStrip_pres_noAdj (squeezeSp_noAdj _)
  have hrfl : cleanExtractedText (cleanExtractedText t) =
      pyStrip (squeezeSp (squeezeNl (rstripNl (dehyph
        (replCR (cleanExtractedText t)))))) := rfl
  rw [hrfl, replCR_eq_self f1, dehyph_eq_self h, rstripNl_eq_self f2,
    squeezeNl_eq_self f3, squeezeSp_eq_self f4, hout, pyStrip_idem]

/-- C4 witness: a concrete instance of the amended idempotence theorem. -/
theorem clean_idempotent_witness :
    hasHyphNlWord (cleanExtractedText "GHG  inventory\n\n\n text".data) = false ∧
    cleanExtractedText (cleanExtractedText "GHG  inventory\n\n\n text".data) =
      cleanExtractedText "GHG  inventory\n\n\n text".data :=
  ⟨by decide, clean_idempotent_of_no_exposed_hyphen (by decide)⟩

/-- `rfindNl` returns an index strictly below its stop bound. -/
theorem rfindNl_lt (doc : Doc) : ∀ n p, rfindNl doc n = some p → p < n := by
  intro n
  induction n with
  | zero => intro p h; simp [rfindNl] at h
  | succ m ih =>
    intro p h
    simp only [rfindNl] at h
    split at h
    · injection h with h
      omega
    · exact Nat.lt_trans (ih p h) (Nat.lt_succ_self m)

/-- The roman-numeral pull-back never moves a span start forward. -/
theorem pullBack_le (doc : Doc) (st : Nat) : pullBack doc st ≤ st := by
  unfold pullBack
  cases hf : rfindNl doc st with
  | none => exact Nat.le_refl st
  | some p =>
    have hlt := rfindNl_lt doc st p hf
    by_cases hr : romanLabel (sliceD doc (p + 1) st) = true
    · simp only [hr, if_true]
      omega
    · simp only [if_neg hr]
      exact Nat.le_refl st

/-- Every raw span records some seed's start together with its pull-back. -/
theorem rawAux_shape (doc : Doc) :
    ∀ l, ∀ r ∈ rawAux doc l, ∃ s ∈ l, r.sstart = s.2.1 ∧
      r.rstart = pullBack doc s.2.1 := by
  intro l
  induction l with
  | nil => intro r hr; simp [rawAux] at hr
  | cons a t ih =>
    intro r hr
    obtain ⟨s, st, e⟩ := a
    simp only [rawAux, List.mem_cons] at hr
    rcases hr with hr | hr
    · exact ⟨(s, st, e), List.mem_cons_self _ _, by rw [hr], by rw [hr]⟩
    · obtain ⟨s2, hs2, h1, h2⟩ := ih r hr
      exact ⟨s2, List.mem_cons_of_mem _ hs2, h1, h2⟩

/-- With in-bounds seed starts, every raw span ends within the document. -/
theorem rawAux_rend_le (doc : Doc) :
    ∀ l, (∀ s ∈ l, s.2.1 ≤ doc.length) →
      ∀ r ∈ rawAux doc l, r.rend ≤ doc.length := by
  intro l
  induction l with
  | nil => intro _ r hr; simp [rawAux] at hr
  | cons a t ih =>
    intro hb r hr
    obtain ⟨s, st, e⟩ := a
    simp only [rawAux, List.mem_cons] at hr
    rcases hr with hr | hr
    · subst hr
      cases t with
      | nil => simp
      | cons b t2 =>
        obtain ⟨s2, st2, e2⟩ := b
        have := hb (s2, st2, e2) (by simp)
        simpa using this
    · exact ih (fun s hs => hb s (List.mem_cons_of_mem _ hs)) r hr

/-- A position covered in a tail is covered in the whole list. -/
theorem coveredBy_cons {l : List RSpan} {r : RSpan} {x : Nat}
    (h : coveredBy l x) : coveredBy (r :: l) x := by
  obtain ⟨r2, hr2, h1, h2⟩ := h
  exact ⟨r2, List.mem_cons_of_mem _ hr2, h1, h2⟩

/-- From the first span's resolved start to the end of the document, every
position lies in some raw span: consecutive spans leave no gap. -/
theorem rawAux_cover (doc : Doc) :
    ∀ (t : List (String × Nat × Nat)) (a : String × Nat × Nat) (x : Nat),
      pullBack doc a.2.1 ≤ x → x < doc.length →
      coveredBy (rawAux doc (a :: t)) x := by
  intro t
  induction t with
  | nil =>
    intro a x h1 h2
    obtain ⟨s, st, e⟩ := a
    exact ⟨⟨s, pullBack doc st, st, doc.length⟩, by simp [rawAux], h1, h2⟩
  | cons b t2 ih =>
    intro a x h1 h2
    obtain ⟨s, st, e⟩ := a
    obtain ⟨s2, st2, e2⟩ := b
    by_cases hx : x < st2
    · exact ⟨⟨s, pullBack doc st, st, st2⟩, by simp [rawAux], h1, hx⟩
    · have hge : st2 ≤ x := Nat.le_of_not_lt hx
      have hpb : pullBack doc st2 ≤ x := Nat.le_trans (pullBack_le doc st2) hge
      exact coveredBy_cons (ih (s2, st2, e2) x hpb h2)

/-- On seeds sorted by start, each raw span ends no later than every later
span's seed start. -/
theorem rawAux_pairwise (doc : Doc) :
    ∀ l, List.Pairwise seedLe l →
      List.Pairwise (fun r1 r2 => r1.rend ≤ r2.sstart) (rawAux doc l) := by
  intro l
  induction l with
  | nil => intro _; simp [rawAux]
  | cons a t ih =>
    intro hp
    rw [List.pairwise_cons] at hp
    obtain ⟨_ha, ht⟩ := hp
    obtain ⟨s, st, e⟩ := a
    simp only [rawAux]
    rw [List.pairwise_cons]
    constructor
    · intro r hr
      cases t with
      | nil => simp [rawAux] at hr
      | cons b t2 =>
        obtain ⟨s2, st2, e2⟩ := b
        obtain ⟨s3, hs3, h1, _⟩ := rawAux_shape doc ((s2, st2, e2) :: t2) r hr
        rw [h1]
        rcases List.mem_cons.mp hs3 with h | h
        · subst h
          exact Nat.le_refl st2
        · exact (List.pairwise_cons.mp ht).1 s3 h
    · exact ih ht

/-- C2 (amended): for every document and every nonempty seed list whose
starts lie within the document, the resolved spans (1) exist, (2) jointly
cover every position from the first span's resolved start to the end of
the document, (3) never reach past the end, and (4) are chained: each
span ends no later than every later span's seed start, so overlap between
spans is confined to the later span's pulled-back roman-label prefix
`[rstart, sstart)`.  Coverage does not in general start at 0, and spans
can overlap, so the original disjoint-cover claim fails. -/
theorem resolved_spans_cover {doc : Doc} {seeds : List (String × Nat × Nat)}
    (hne : seeds ≠ []) (hb : ∀ s ∈ seeds, s.2.1 ≤ doc.length) :
    resolvedRaw doc seeds ≠ [] ∧
    (∀ r0, (resolvedRaw doc seeds).head? = some r0 →
      ∀ x, r0.rstart ≤ x → x < doc.length →
        coveredBy (resolvedRaw doc seeds) x) ∧
    (∀ x, coveredBy (resolvedRaw doc seeds) x → x < doc.length) ∧
    List.Pairwise (fun r1 r2 => r1.rend ≤ r2.sstart)
      (resolvedRaw doc seeds) := by
  have hperm := List.perm_insertionSort seedLe seeds
  have hsort : List.Pairwise seedLe (seeds.insertionSort seedLe) :=
    List.sorted_insertionSort seedLe seeds
  have hb2 : ∀ s ∈ seeds.insertionSort seedLe, s.2.1 ≤ doc.length :=
    fun s hs => hb s (hperm.mem_iff.mp hs)
  cases hs : seeds.insertionSort seedLe with
  | nil =>
    exfalso
    apply hne
    rw [hs] at hperm
    exact hperm.symm.eq_nil
  | cons a t =>
    have hraw : resolvedRaw doc seeds = rawAux doc (a :: t) := by
      rw [resolvedRaw, hs]
    have hb3 : ∀ s ∈ a :: t, s.2.1 ≤ doc.length := by
      rw [← hs]; exact hb2
    have hsort3 : List.Pairwise seedLe (a :: t) := by
      rw [← hs]; exact hsort
    refine ⟨?_, ?_, ?_, ?_⟩
    · rw [hraw]
      obtain ⟨s, st, e⟩ := a
      simp [rawAux]
    · intro r0 h0 x hx1 hx2
      rw [hraw]
      rw [hraw] at h0
      obtain ⟨s, st, e⟩ := a
      simp only [rawAux, List.head?_cons] at h0
      injection h0 with h0
      rw [← h0] at hx1
      exact rawAux_cover doc t (s, st, e) x hx1 hx2
    · intro x hc
      rw [hraw] at hc
      obtain ⟨r, hr, _, h2⟩ := hc
      exact Nat.lt_of_lt_of_le h2 (rawAux_rend_le doc (a :: t) hb3 r hr)
    · rw [hraw]
      exact rawAux_pairwise doc (a :: t) hsort3

/-- C2 witness: on `"ab\ncd"` with the single seed at offset 1, position 3
is covered by the resolved span `[1, 5)`. -/
theorem resolved_spans_cover_witness :
    coveredBy (resolvedRaw "ab\ncd".data [("S", 1, 2)]) 3 :=
  (@resolved_spans_cover ("ab\ncd".data) [("S", 1, 2)] (by decide)
    (by decide)).2.1 ⟨"S", 1, 1, 5⟩ (by decide) 3 (by decide) (by decide)

/-- C2 counterexample: on the document `"zz\nQ\niv. W"` with seeds at
offsets 3 (the `Q` heading) and 9 (the `W` heading), the roman pull-back
moves the second span's start to 5 while the first span still ends at the
second seed start 9, so positions 5-8 lie in both resolved spans; and
position 0 (the non-whitespace `z`) lies in no span.  The resolved spans
are neither pairwise non-overlapping nor a cover of `[0, len)` minus
leading/trailing whitespace. -/
theorem resolved_spans_overlap_counterexample :
    resolvedRaw "zz\nQ\niv. W".data [("A", 3, 4), ("B", 9, 10)] =
      [⟨"A", 3, 3, 9⟩, ⟨"B", 5, 9, 10⟩] ∧
    (∃ r1 ∈ resolvedRaw "zz\nQ\niv. W".data [("A", 3, 4), ("B", 9, 10)],
      ∃ r2 ∈ resolvedRaw "zz\nQ\niv. W".data [("A", 3, 4), ("B", 9, 10)],
        r1 ≠ r2 ∧ r1.rstart ≤ 5 ∧ 5 < r1.rend ∧
          r2.rstart ≤ 5 ∧ 5 < r2.rend) ∧
    ¬ coveredBy (resolvedRaw "zz\nQ\niv. W".data [("A", 3, 4), ("B", 9, 10)]) 0 ∧
    isPyWS ("zz\nQ\niv. W".data.getD 0 ' ') = false := by
  decide

/-- When a newline precedes the start and the same-line prefix before the
start is a bare roman-numeral label, the start is pulled back to just
after that newline. -/
theorem pullBack_some {doc : Doc} {p st : Nat}
    (hf : rfindNl doc st = some p)
    (hr : romanLabel (sliceD doc (p + 1) st) = true) :
    pullBack doc st = p + 1 := by
  simp only [pullBack, hf, hr, if_true]

/-- The raw spans are chained: each ends exactly at the next span's seed
start, and the last ends at the document length. -/
theorem rawAux_chain (doc : Doc) :
    ∀ l, chainEnds (rawAux doc l) doc.length = true := by
  intro l
  induction l with
  | nil => simp [rawAux, chainEnds]
  | cons a t ih =>
    obtain ⟨s, st, e⟩ := a
    cases t with
    | nil => simp [rawAux, chainEnds]
    | cons b t2 =>
      obtain ⟨s2, st2, e2⟩ := b
      simp only [rawAux, chainEnds]
      refine Bool.and_eq_true_iff.mpr ⟨by simp, ?_⟩
      exact ih

/-- C7 (amended): for every document and seed list, (1) every resolved
span whose seed start is preceded, on the seed's own line, only by a bare
roman-numeral label is pulled back to start just after the preceding
newline, so the label is included in the span; (2) the spans are chained,
each ending exactly at the next span's seed start and the last at the
document end; (3) every span with nonempty stripped text contributes that
text to the extraction result under its section name.  The label test
reads the match's own line prefix `combined_text[prev_nl+1 : start]`, not
the previous line: a heading match starting immediately after a label
line is not pulled back. -/
theorem roman_pullback_spec (doc : Doc) (seeds : List (String × Nat × Nat)) :
    (∀ r ∈ resolvedRaw doc seeds, ∀ p, rfindNl doc r.sstart = some p →
      romanLabel (sliceD doc (p + 1) r.sstart) = true → r.rstart = p + 1) ∧
    chainEnds (resolvedRaw doc seeds) doc.length = true ∧
    (∀ r ∈ resolvedRaw doc seeds,
      (pyStrip (sliceD doc r.rstart r.rend)).isEmpty = false →
      (r.name, pyStrip (sliceD doc r.rstart r.rend)) ∈
        resolveSpans doc seeds) := by
  refine ⟨?_, ?_, ?_⟩
  · intro r hr p hf hlab
    unfold resolvedRaw at hr
    obtain ⟨s, _hs, h1, h2⟩ :=
      rawAux_shape doc (seeds.insertionSort seedLe) r hr
    rw [h2, ← h1]
    exact pullBack_some hf hlab
  · unfold resolvedRaw
    exact rawAux_chain doc _
  · intro r hr hne
    unfold resolveSpans
    refine List.mem_filterMap.mpr ⟨r, hr, ?_⟩
    simp [hne]

/-- C7 witness: the spec's own example.  On
`"x\nIV. Adaptation actions\nText A\n\nV. Next Heading\nz"` with the
heading seeds at offsets 6 and 36, the first span is pulled back to
offset 2 (including the `IV.` label), and the spans chain through the
next seed start to the document end. -/
theorem roman_pullback_witness :
    ((resolvedRaw "x\nIV. Adaptation actions\nText A\n\nV. Next Heading\nz".data
        [("Adaptation actions", 6, 24), ("Next Heading", 36, 48)]).headD
      ⟨"", 0, 0, 0⟩).rstart = 1 + 1 ∧
    chainEnds
      (resolvedRaw "x\nIV. Adaptation actions\nText A\n\nV. Next Heading\nz".data
        [("Adaptation actions", 6, 24), ("Next Heading", 36, 48)])
      ("x\nIV. Adaptation actions\nText A\n\nV. Next Heading\nz".data.length) =
      true :=
  ⟨(roman_pullback_spec
      "x\nIV. Adaptation actions\nText A\n\nV. Next Heading\nz".data
      [("Adaptation actions", 6, 24), ("Next Heading", 36, 48)]).1 _
      (by decide) 1 (by decide) (by decide),
   (roman_pullback_spec
      "x\nIV. Adaptation actions\nText A\n\nV. Next Heading\nz".data
      [("Adaptation actions", 6, 24), ("Next Heading", 36, 48)]).2.1⟩

/-- C7 counterexample: on `"x\niv.\nA"` the heading match at offset 6
starts immediately after the line `"iv."` (offsets 2-4), which is a bare
roman-numeral label, yet the resolved span starts at 6, not at the label
line: the pulled-back prefix test reads the match's own (empty) line
prefix, so a label on the previous line is never included. -/
theorem roman_pullback_counterexample :
    resolvedRaw "x\niv.\nA".data [("S", 6, 7)] = [⟨"S", 6, 6, 7⟩] ∧
    romanLabel (sliceD "x\niv.\nA".data 2 5) = true ∧
    "x\niv.\nA".data.getD 5 ' ' = '\n' ∧
    resolveSpans "x\niv.\nA".data [("S", 6, 7)] = [("S", ['A'])] := by
  decide

/-- Two mutually permuted lists, both sorted by seed start, whose elements
are determined by their start offset, are equal. -/
theorem sorted_perm_eq :
    ∀ (l1 l2 : List (String × Nat × Nat)), l1.Perm l2 →
      List.Pairwise seedLe l1 → List.Pairwise seedLe l2 →
      (∀ a ∈ l1, ∀ b ∈ l1, a.2.1 = b.2.1 → a = b) → l1 = l2 := by
  intro l1
  induction l1 with
  | nil =>
    intro l2 hp _ _ _
    exact hp.nil_eq
  | cons a t1 ih =>
    intro l2 hp hs1 hs2 hinj
    cases l2 with
    | nil =>
      have := hp.length_eq
      simp at this
    | cons b t2 =>
      have hab : a = b := by
        have hma : a ∈ b :: t2 := hp.mem_iff.mp (List.mem_cons_self a t1)
        have hmb : b ∈ a :: t1 := hp.mem_iff.mpr (List.mem_cons_self b t2)
        rcases List.mem_cons.mp hma with h | h
        · exact h
        · rcases List.mem_cons.mp hmb with h2 | h2
          · exact h2.symm
          · have hle1 : seedLe a b := (List.pairwise_cons.mp hs1).1 b h2
            have hle2 : seedLe b a := (List.pairwise_cons.mp hs2).1 a h
            exact hinj a (List.mem_cons_self a t1) b
              (List.mem_cons_of_mem _ h2) (Nat.le_antisymm hle1 hle2)
      subst hab
      have hpt : t1.Perm t2 := hp.cons_inv
      rw [ih t2 hpt (List.pairwise_cons.mp hs1).2 (List.pairwise_cons.mp hs2).2
        (fun x hx y hy hxy => hinj x (List.mem_cons_of_mem _ hx) y
          (List.mem_cons_of_mem _ hy) hxy)]

/-- C8 (amended): extraction is configuration-order independent provided
the located seed starts determine their seeds: for every document and
every two configuration lists that are permutations of each other, if any
two located seeds sharing a start offset are equal, the extracted
section lists coincide.  Without that proviso the stable sort keeps
equal-start seeds in configuration order and the output differs. -/
theorem extract_sections_order_independent {doc : Doc}
    {d1 d2 : List (String × (Doc → Option (Nat × Nat)))}
    (hperm : d1.Perm d2)
    (hinj : ∀ a ∈ d1.filterMap (fun d =>
        (d.2 doc).map (fun q => (d.1, q.1, q.2))),
      ∀ b ∈ d1.filterMap (fun d =>
        (d.2 doc).map (fun q => (d.1, q.1, q.2))),
      a.2.1 = b.2.1 → a = b) :
    extractSections doc d1 = extractSections doc d2 := by
  have hseeds :
      (d1.filterMap (fun d => (d.2 doc).map (fun q => (d.1, q.1, q.2)))).Perm
        (d2.filterMap (fun d => (d.2 doc).map (fun q => (d.1, q.1, q.2)))) :=
    hperm.filterMap _
  have hp : ((d1.filterMap (fun d =>
        (d.2 doc).map (fun q => (d.1, q.1, q.2)))).insertionSort seedLe).Perm
      ((d2.filterMap (fun d =>
        (d.2 doc).map (fun q => (d.1, q.1, q.2)))).insertionSort seedLe) :=
    ((List.perm_insertionSort seedLe _).trans hseeds).trans
      (List.perm_insertionSort seedLe _).symm
  have heq := sorted_perm_eq _ _ hp
    (List.sorted_insertionSort seedLe _) (List.sorted_insertionSort seedLe _)
    (fun a ha b hb hab =>
      hinj a ((List.perm_insertionSort seedLe _).mem_iff.mp ha)
        b ((List.perm_insertionSort seedLe _).mem_iff.mp hb) hab)
  unfold extractSections resolveSpans resolvedRaw
  rw [heq]

/-- C8 witness: two seeds at distinct offsets 0 and 3 of `"ab\ncd"`, bound
in the two orders, extract the same sections. -/
theorem extract_sections_order_witness :
    extractSections "ab\ncd".data
        [("A", fun _ => some (0, 2)), ("B", fun _ => some (3, 4))] =
      extractSections "ab\ncd".data
        [("B", fun _ => some (3, 4)), ("A", fun _ => some (0, 2))] :=
  extract_sections_order_independent (List.Perm.swap _ _ _) (by decide)

/-- C8 counterexample: the same two name-to-matcher bindings enumerated in
the two orders give different outputs.  Both seeds start at offset 5 of
`"junk\nHEAD\nrest"`; the stable sort keeps configuration order, the
earlier seed's span is emptied by the later one's start and dropped after
strip, so whichever name comes second keeps the text: extraction is not
deterministic under configuration reordering. -/
theorem extract_order_counterexample :
    extractSections "junk\nHEAD\nrest".data
        [("First", fun _ => some (5, 9)), ("Second", fun _ => some (5, 9))] =
      [("Second", "HEAD\nrest".data)] ∧
    extractSections "junk\nHEAD\nrest".data
        [("Second", fun _ => some (5, 9)), ("First", fun _ => some (5, 9))] =
      [("First", "HEAD\nrest".data)] := by
  decide

/-- The cluster loop always emits a first cluster beginning at the running
start, closing at or beyond the running previous index. -/
theorem clusterAux_head : ∀ (rest : List Nat) (start prev : Nat),
    List.Pairwise (fun a b : Nat => a ≤ b) (prev :: rest) →
    ∃ e t, clusterAux start prev rest = (start, e) :: t ∧ prev ≤ e := by
  intro rest
  induction rest with
  | nil =>
    intro start prev _
    exact ⟨prev, [], rfl, Nat.le_refl prev⟩
  | cons j rest ih =>
    intro start prev hp
    rw [List.pairwise_cons] at hp
    have hpj : prev ≤ j := hp.1 j (List.mem_cons_self j rest)
    by_cases h : j - prev ≤ 2
    · obtain ⟨e, t, heq, hle⟩ := ih start j hp.2
      refine ⟨e, t, ?_, Nat.le_trans hpj hle⟩
      simp only [clusterAux, if_pos h]
      exact heq
    · exact ⟨prev, clusterAux j j rest,
        by simp only [clusterAux, if_neg h], Nat.le_refl prev⟩

/-- Every cluster bound produced by the loop is the running start, the
running previous index, or an input index. -/
theorem clusterAux_bounds : ∀ (rest : List Nat) (start prev : Nat),
    ∀ c ∈ clusterAux start prev rest,
      (c.1 = start ∨ c.1 ∈ rest) ∧ (c.2 = prev ∨ c.2 ∈ rest) := by
  intro rest
  induction rest with
  | nil =>
    intro start prev c hc
    simp only [clusterAux, List.mem_singleton] at hc
    subst hc
    exact ⟨Or.inl rfl, Or.inl rfl⟩
  | cons j rest ih =>
    intro start prev c hc
    by_cases h : j - prev ≤ 2
    · simp only [clusterAux, if_pos h] at hc
      obtain ⟨h1, h2⟩ := ih start j c hc
      refine ⟨?_, ?_⟩
      · rcases h1 with h1 | h1
        · exact Or.inl h1
        · exact Or.inr (List.mem_cons_of_mem _ h1)
      · rcases h2 with h2 | h2
        · exact Or.inr (by rw [h2]; exact List.mem_cons_self j rest)
        · exact Or.inr (List.mem_cons_of_mem _ h2)
    · simp only [clusterAux, if_neg h, List.mem_cons] at hc
      rcases hc with hc | hc
      · subst hc
        exact ⟨Or.inl rfl, Or.inl rfl⟩
      · obtain ⟨h1, h2⟩ := ih j j c hc
        refine ⟨?_, ?_⟩
        · rcases h1 with h1 | h1
          · exact Or.inr (by rw [h1]; exact List.mem_cons_self j rest)
          · exact Or.inr (List.mem_cons_of_mem _ h1)
        · rcases h2 with h2 | h2
          · exact Or.inr (by rw [h2]; exact List.mem_cons_self j rest)
          · exact Or.inr (List.mem_cons_of_mem _ h2)

/-- Every matched index (running previous or remaining) falls inside some
emitted cluster. -/
theorem clusterAux_covers : ∀ (rest : List Nat) (start prev : Nat),
    start ≤ prev → List.Pairwise (fun a b : Nat => a ≤ b) (prev :: rest) →
    ∀ i, (i = prev ∨ i ∈ rest) →
      ∃ c ∈ clusterAux start prev rest, c.1 ≤ i ∧ i ≤ c.2 := by
  intro rest
  induction rest with
  | nil =>
    intro start prev hsp _ i hi
    rcases hi with hi | hi
    · subst hi
      exact ⟨(start, i), List.mem_singleton_self _, hsp, Nat.le_refl _⟩
    · simp at hi
  | cons j rest ih =>
    intro start prev hsp hp i hi
    rw [List.pairwise_cons] at hp
    have hpj : prev ≤ j := hp.1 j (List.mem_cons_self j rest)
    by_cases h : j - prev ≤ 2
    · simp only [clusterAux, if_pos h]
      rcases hi with hi | hi
      · subst hi
        obtain ⟨e, t, heq, hle⟩ := clusterAux_head rest start j hp.2
        refine ⟨(start, e), ?_, hsp, Nat.le_trans hpj hle⟩
        rw [heq]
        exact List.mem_cons_self _ _
      · exact ih start j (Nat.le_trans hsp hpj) hp.2 i (List.mem_cons.mp hi)
    · simp only [clusterAux, if_neg h]
      rcases hi with hi | hi
      · subst hi
        exact ⟨(start, i), List.mem_cons_self _ _, hsp, Nat.le_refl _⟩
      · obtain ⟨c, hc, h1, h2⟩ := ih j j (Nat.le_refl j) hp.2 i
          (List.mem_cons.mp hi)
        exact ⟨c, List.mem_cons_of_mem _ hc, h1, h2⟩

/-- Consecutive emitted clusters are separated by a gap of more than 2
lines. -/
theorem clusterAux_chain : ∀ (rest : List Nat) (start prev : Nat),
    List.Pairwise (fun a b : Nat => a ≤ b) (prev :: rest) →
    List.Chain' (fun c1 c2 => c1.2 + 2 < c2.1)
      (clusterAux start prev rest) := by
  intro rest
  induction rest with
  | nil =>
    intro start prev _
    simp only [clusterAux]
    exact List.chain'_singleton _
  | cons j rest ih =>
    intro start prev hp
    rw [List.pairwise_cons] at hp
    have hpj : prev ≤ j := hp.1 j (List.mem_cons_self j rest)
    by_cases h : j - prev ≤ 2
    · simp only [clusterAux, if_pos h]
      exact ih start j hp.2
    · simp only [clusterAux, if_neg h]
      obtain ⟨e, t, heq, _⟩ := clusterAux_head rest j j hp.2
      rw [heq, List.chain'_cons]
      refine ⟨?_, ?_⟩
      · show prev + 2 < j
        omega
      · rw [← heq]
        exact ih j j hp.2

/-- When all successive matched indices are at most 2 apart, the loop
emits one single cluster from the running start to the last index. -/
theorem clusterAux_single : ∀ (rest : List Nat) (start prev : Nat),
    List.Chain' (fun i j => j - i ≤ 2) (prev :: rest) →
    ∀ y, (prev :: rest).getLast? = some y →
    clusterAux start prev rest = [(start, y)] := by
  intro rest
  induction rest with
  | nil =>
    intro start prev _ y hy
    have hy2 : some prev = some y := hy
    injection hy2 with hy2
    rw [clusterAux, hy2]
  | cons j rest ih =>
    intro start prev hch y hy
    rw [List.chain'_cons] at hch
    rw [List.getLast?_cons_cons] at hy
    simp only [clusterAux, if_pos hch.1]
    exact ih start j hch.2 y hy

/-- The seen-set pass keeps a subsequence of the expanded windows. -/
theorem dedupWins_sublist : ∀ (l seen : List (Nat × Nat)),
    (dedupWins seen l).Sublist l := by
  intro l
  induction l with
  | nil =>
    intro seen
    exact List.Sublist.refl []
  | cons w rest ih =>
    intro seen
    by_cases h : w ∈ seen
    · simp only [dedupWins, if_pos h]
      exact (ih seen).cons w
    · simp only [dedupWins, if_neg h]
      exact (ih (w :: seen)).cons₂ w

/-- Nothing already seen is ever emitted again. -/
theorem dedupWins_fresh : ∀ (l seen : List (Nat × Nat)),
    ∀ w ∈ dedupWins seen l, w ∉ seen := by
  intro l
  induction l with
  | nil =>
    intro seen w hw
    simp [dedupWins] at hw
  | cons v rest ih =>
    intro seen w hw
    by_cases h : v ∈ seen
    · simp only [dedupWins, if_pos h] at hw
      exact ih seen w hw
    · simp only [dedupWins, if_neg h, List.mem_cons] at hw
      rcases hw with hw | hw
      · subst hw
        exact h
      · exact fun hws =>
          ih (v :: seen) w hw (List.mem_cons_of_mem _ hws)

/-- The surviving windows carry no exact duplicates. -/
theorem dedupWins_nodup : ∀ (l seen : List (Nat × Nat)),
    (dedupWins seen l).Nodup := by
  intro l
  induction l with
  | nil =>
    intro seen
    simp [dedupWins]
  | cons v rest ih =>
    intro seen
    by_cases h : v ∈ seen
    · simp only [dedupWins, if_pos h]
      exact ih seen
    · simp only [dedupWins, if_neg h]
      rw [List.nodup_cons]
      refine ⟨?_, ih (v :: seen)⟩
      intro hv
      exact dedupWins_fresh rest (v :: seen) v hv (List.mem_cons_self v seen)

/-- C9 (amended): for every keyword list and line list with at least one
keyword and at least one matching line: (1) the matched indices are
exactly the line indices whose line contains some keyword
case-insensitively; (2) every cluster bound is a matched index; (3) every
matched index lies inside some cluster; (4) consecutive clusters are
separated by a gap of more than 2 lines; (5) if all successive matched
indices are at most 2 apart they form one single cluster from the first
to the last match; (6) the surviving windows are a subsequence of the
±5-expanded clusters in document order, (7) with only *identical* windows
removed (the surviving windows are exact-duplicate-free, but overlapping
distinct windows all survive, duplicating their shared lines); (8) the
output joins the surviving windows' line ranges, each followed by a blank
separator line, with newlines, then strips. -/
theorem keyword_fallback_spec {kws : List (List Char)}
    {lines : List (List Char)} (hk : kws.isEmpty = false)
    (hm : (matchedIndices kws lines).isEmpty = false) :
    (∀ i, i ∈ matchedIndices kws lines ↔
      i ∈ List.range lines.length ∧
        lineMatches kws (lines.getD i []) = true) ∧
    (∀ c ∈ clustersOf (matchedIndices kws lines),
      c.1 ∈ matchedIndices kws lines ∧ c.2 ∈ matchedIndices kws lines) ∧
    (∀ i ∈ matchedIndices kws lines,
      ∃ c ∈ clustersOf (matchedIndices kws lines), c.1 ≤ i ∧ i ≤ c.2) ∧
    List.Chain' (fun c1 c2 => c1.2 + 2 < c2.1)
      (clustersOf (matchedIndices kws lines)) ∧
    (∀ x y, (matchedIndices kws lines).head? = some x →
      (matchedIndices kws lines).getLast? = some y →
      List.Chain' (fun i j => j - i ≤ 2) (matchedIndices kws lines) →
      clustersOf (matchedIndices kws lines) = [(x, y)]) ∧
    (survivingWins kws lines).Sublist
      ((clustersOf (matchedIndices kws lines)).map (expandWin lines.length)) ∧
    (survivingWins kws lines).Nodup ∧
    extractSectionByKeywords kws lines =
      pyStrip (List.intercalate ['\n']
        ((survivingWins kws lines).flatMap
          (fun w => winLines lines w ++ [[]]))) := by
  have hsorted : List.Pairwise (fun a b : Nat => a ≤ b)
      (matchedIndices kws lines) := by
    unfold matchedIndices
    exact ((List.pairwise_lt_range lines.length).sublist
      (List.filter_sublist _)).imp (fun h => Nat.le_of_lt h)
  obtain ⟨x, rest, hm2⟩ :
      ∃ x rest, matchedIndices kws lines = x :: rest := by
    cases hmi : matchedIndices kws lines with
    | nil => rw [hmi] at hm; simp at hm
    | cons a t => exact ⟨a, t, rfl⟩
  have hs2 : List.Pairwise (fun a b : Nat => a ≤ b) (x :: rest) := by
    rw [← hm2]
    exact hsorted
  refine ⟨?_, ?_, ?_, ?_, ?_, ?_, ?_, ?_⟩
  · intro i
    unfold matchedIndices
    exact List.mem_filter
  · intro c hc
    rw [hm2] at hc ⊢
    simp only [clustersOf] at hc
    obtain ⟨h1, h2⟩ := clusterAux_bounds rest x x c hc
    refine ⟨?_, ?_⟩
    · rcases h1 with h1 | h1
      · rw [h1]; exact List.mem_cons_self _ _
      · exact List.mem_cons_of_mem _ h1
    · rcases h2 with h2 | h2
      · rw [h2]; exact List.mem_cons_self _ _
      · exact List.mem_cons_of_mem _ h2
  · intro i hi
    rw [hm2] at hi ⊢
    simp only [clustersOf]
    exact clusterAux_covers rest x x (Nat.le_refl x) hs2 i
      (List.mem_cons.mp hi)
  · rw [hm2]
    simp only [clustersOf]
    exact clusterAux_chain rest x x hs2
  · intro x2 y hh hl hch
    rw [hm2] at hh hl hch ⊢
    simp only [List.head?_cons] at hh
    injection hh with hh
    subst hh
    simp only [clustersOf]
    exact clusterAux_single rest _ _ hch y hl
  · unfold survivingWins
    exact dedupWins_sublist _ []
  · unfold survivingWins
    exact dedupWins_nodup _ []
  · have h1 : ¬ (kws.isEmpty = true) := by
      rw [hk]; exact Bool.false_ne_true
    have h2 : ¬ ((matchedIndices kws lines).isEmpty = true) := by
      rw [hm]; exact Bool.false_ne_true
    unfold extractSectionByKeywords
    rw [if_neg h1, if_neg h2]

/-- C9 witness: keyword `k` against the two lines `k` / `a`: line 0
matches and the output is the expanded window's text. -/
theorem keyword_fallback_witness :
    (0 ∈ matchedIndices [['k']] [['k'], ['a']]) ∧
    extractSectionByKeywords [['k']] [['k'], ['a']] = ['k', '\n', 'a'] :=
  have h := @keyword_fallback_spec [['k']] [['k'], ['a']] (by decide) (by decide)
  ⟨(h.1 0).mpr (by decide), by rw [h.2.2.2.2.2.2.2]; decide⟩

/-- C9 counterexample: keyword `k` matches lines 0 and 10 of a 16-line
document; the two clusters expand to the windows `(0,5)` and `(5,15)`,
which overlap at line 5 yet both survive (the seen-set drops only
identical spans), so line 5's text (`q`) appears twice in the output
although it occurs once in the document: overlapping expanded windows are
not deduplicated. -/
theorem keyword_overlap_counterexample :
    survivingWins [['k']]
        [['k'], ['a'], ['a'], ['a'], ['a'], ['q'], ['a'], ['a'], ['a'],
         ['a'], ['k'], ['a'], ['a'], ['a'], ['a'], ['a']] =
      [(0, 5), (5, 15)] ∧
    (extractSectionByKeywords [['k']]
        [['k'], ['a'], ['a'], ['a'], ['a'], ['q'], ['a'], ['a'], ['a'],
         ['a'], ['k'], ['a'], ['a'], ['a'], ['a'], ['a']]).count 'q' = 2 ∧
    (List.intercalate ['\n']
        [['k'], ['a'], ['a'], ['a'], ['a'], ['q'], ['a'], ['a'], ['a'],
         ['a'], ['k'], ['a'], ['a'], ['a'], ['a'], ['a']]).count 'q' = 1 := by
  decide
